import Mathlib

/-!
Shallow embedding of `go-func-logger` (`main.go`), a tool that instruments a
Go source file with entry/exit trace print statements, together with proofs
of the specification claims about it.

Modelling conventions:
* `token.Position` is modelled as a pair of naturals (`line`, `column`);
  the Go parser produces non-negative line/column values, with line ≥ 1 and
  column ≥ 1 for every valid (resolved) position.
* A `token.Pos` that may be `token.NoPos` (the brace positions of a function
  body) is modelled as `Option Position`, `none` standing for an unresolved
  or invalid position.
* The Go AST is modelled by `Stmt` / `BlockStmt` / `Field` / `FieldList` /
  `FuncDecl` / `Decl`; a statement carries its own resolved source position
  (the value `fset.Position(stmt.Pos())` in the Go code) plus the list of its
  child statements, which is what `ast.Inspect`'s pre-order walk descends
  into.  `Stmt.ret` is a `*ast.ReturnStmt`, `Stmt.other` is any other
  statement kind.
* `log.Fatal` (which terminates the whole process) is modelled with
  `Except String`: an `.error` result stands for the fatal abort, in which
  case no output file is produced.
* `strings.Repeat(s, n)` panics in Go when `n < 0`; columns are naturals
  here, so the only way `info.Col - 1` is negative in Go is `info.Col = 0`,
  which `renderLogLine` maps to `none` (modelling the panic).
* File I/O is made explicit: `ReadFileLines` becomes a `contents` parameter
  (the input file split into lines) and `WriteLogsToFile` returns the list
  of output lines instead of writing them.
-/

namespace GoFuncLogger

structure Position where
  line : Nat
  column : Nat
  deriving Repr, DecidableEq, Inhabited

mutual
/-- A statement of a Go function body.  `ret` is a `*ast.ReturnStmt`;
`other` is any other statement.  `children` are the statements nested
anywhere inside it (blocks of `if`/`for`/`switch`, function literals,
statements inside expressions, ...), in source order, as visited by
`ast.Inspect`.  The child list is the mutually defined `StmtList` (an
isomorphic copy of `List Stmt`, used so that the recursive walks below are
structurally recursive). -/
inductive Stmt where
  | ret (pos : Position) (children : StmtList)
  | other (pos : Position) (children : StmtList)
inductive StmtList where
  | nil
  | cons (head : Stmt) (tail : StmtList)
end

instance : Inhabited Stmt := ⟨.other default .nil⟩

def Stmt.pos : Stmt → Position
  | .ret p _ => p
  | .other p _ => p

/-- Model of `*ast.BlockStmt`: `Lbrace`/`Rbrace` are `token.Pos` values which may be
`token.NoPos` or otherwise invalid (modelled by `none`); `list` is the
ordered list of top-level statements of the block. -/
structure BlockStmt where
  lbrace : Option Position
  rbrace : Option Position
  list : List Stmt
  deriving Inhabited

/-- Model of `*ast.Field`: one entry of a parameter/result list, binding zero or more
names.  (The `Type` field is irrelevant to the logger and omitted; the Go
code's reflective `HasField(field, "Names")`/`HasField(field, "Type")`
checks are always true for a non-nil `*ast.Field`.) -/
structure Field where
  names : List String
  deriving Repr, DecidableEq, Inhabited

/-- Model of `*ast.FieldList`. A nil `*ast.FieldList` pointer is modelled as `none`
at use sites (`Option FieldList`); the reflective `HasField(params, "List")`
check in the Go code is false exactly for the nil pointer. -/
structure FieldList where
  list : List Field
  deriving Repr, DecidableEq, Inhabited

/-- Model of `*ast.FuncDecl` (plus the surrounding `*ast.FuncType`): `name` is the
declared name, `params`/`results` model `fn.Type.Params`/`fn.Type.Results`
(nil pointers as `none`), `body` models `fn.Body` (nil for a declaration
without a body). -/
structure FuncDecl where
  name : Option String
  params : Option FieldList
  results : Option FieldList
  body : Option BlockStmt
  deriving Inhabited

/-- A top-level declaration of the parsed file: either a function
declaration or any other kind of declaration (`import`/`type`/`var`/...). -/
inductive Decl where
  | funcDecl (fn : FuncDecl)
  | other
  deriving Inhabited

/-- Record `FuncInfo` from main.go. -/
structure FuncInfo where
  Name : String
  Params : List String
  Returns : List String
  EntryLogPos : Position
  ExitLogPos : List Position
  deriving Repr, DecidableEq, Inhabited

/-- Record `LogInfo` from main.go. -/
structure LogInfo where
  Log : String
  Col : Nat
  deriving Repr, DecidableEq, Inhabited

/-- Source `IsFuncBodyValid`: the body must exist and both braces must be valid
positions. -/
def IsFuncBodyValid : Option BlockStmt → Bool
  | none => false
  | some body => body.lbrace.isSome && body.rbrace.isSome

/-- Source `ExtractNameFromField`: empty name list yields the empty-string
placeholder, more than one bound name is a fatal error
(`log.Fatal("unknown parameter type")`), otherwise the single name. -/
def ExtractNameFromField (field : Field) : Except String String :=
  match field.names with
  | [] => .ok ("")
  | [n] => .ok n
  | _ => .error ("unknown parameter type")

/-- The loop body of `GetParamNames`: extract every field's name in order,
aborting at the first fatal field. -/
def extractNamesFromFields : List Field → Except String (List String)
  | [] => .ok []
  | f :: rest =>
    match ExtractNameFromField f with
    | .error e => .error e
    | .ok n =>
      match extractNamesFromFields rest with
      | .error e => .error e
      | .ok ns => .ok (n :: ns)

/-- Source `GetParamNames`: a nil `*ast.FieldList` (or an empty one) yields the
empty list, otherwise the names of all fields in order. -/
def GetParamNames : Option FieldList → Except String (List String)
  | none => .ok []
  | some fl => extractNamesFromFields fl.list

mutual
/-- The positions of every `*ast.ReturnStmt` reachable from the given
statement, in `ast.Inspect` pre-order: a return statement records its
own position before the returns nested inside it. -/
def stmtReturns : Stmt → List Position
  | .ret p children => p :: stmtListReturns children
  | .other _ children => stmtListReturns children
def stmtListReturns : StmtList → List Position
  | .nil => []
  | .cons s rest => stmtReturns s ++ stmtListReturns rest
end

/-- Pre-order return positions of a whole statement list. -/
def stmtsReturns : List Stmt → List Position
  | [] => []
  | s :: rest => stmtReturns s ++ stmtsReturns rest

/-- Source `FindReturnStmts`: `ast.Inspect` over the whole declaration; return
statements only occur inside the body. -/
def FindReturnStmts (fn : FuncDecl) : List Position :=
  match fn.body with
  | none => []
  | some body => stmtsReturns body.list

/-- Whether the last top-level statement of the body is a return statement
(the type assertion `fn.Body.List[len-1].(*ast.ReturnStmt)` in the Go
code). -/
def lastIsReturn (stmts : List Stmt) : Bool :=
  match stmts.getLast? with
  | some (.ret _ _) => true
  | _ => false

/-- Source `ExtractFuncInfo`.  Its value `.ok none` models the `(result, false)` "ignore"
return for a function without a syntactically valid body; `.error` models
the `log.Fatal` abort from the parameter/result name extraction.  The Go
code fills `Name`, `Params`, `Returns`, the entry position (first statement
or opening brace), the exit positions (every return found by
`FindReturnStmts`, with one extra synthetic exit at the closing-brace line
when no return was found or the last top-level statement is not a return;
that synthetic position is `fset.Position(fn.Body.Rbrace)` with the column
overridden by the last statement's column when the body is non-empty). -/
def ExtractFuncInfo (fn : FuncDecl) : Except String (Option FuncInfo) :=
  match fn.body with
  | none => .ok none
  | some body =>
    match body.lbrace, body.rbrace with
    | some lb, some rb =>
      match GetParamNames fn.params with
      | .error e => .error e
      | .ok ps =>
        match GetParamNames fn.results with
        | .error e => .error e
        | .ok rs =>
          let entryPos : Position :=
            match body.list with
            | [] => lb
            | s :: _ => s.pos
          let rets := stmtsReturns body.list
          let lastRet := lastIsReturn body.list
          let exitPos : Position :=
            match body.list.getLast? with
            | some s => { line := rb.line, column := s.pos.column }
            | none => rb
          let exits := if rets.length = 0 || !lastRet then rets ++ [exitPos] else rets
          .ok (some { Name := fn.name.getD (""), Params := ps, Returns := rs,
                      EntryLogPos := entryPos, ExitLogPos := exits })
    | _, _ => .ok none

/-- Source `GetAllFuncInfo`: walk the top-level declarations in order, skip
non-function declarations and functions without a valid body, abort on a
fatal extraction error. -/
def GetAllFuncInfo : List Decl → Except String (List FuncInfo)
  | [] => .ok []
  | .other :: rest => GetAllFuncInfo rest
  | .funcDecl fn :: rest =>
    match ExtractFuncInfo fn with
    | .error e => .error e
    | .ok none => GetAllFuncInfo rest
    | .ok (some info) =>
      match GetAllFuncInfo rest with
      | .error e => .error e
      | .ok infos => .ok (info :: infos)

/-- Go `strings.TrimSuffix`: drop the suffix if present, otherwise return the
string unchanged. -/
def strTrimSuffix (s suf : String) : String :=
  if suf.data.isSuffixOf s.data then ⟨s.data.take (s.data.length - suf.data.length)⟩ else s

/-- The loop of `GetParamLog`: fold over the parameter names, skipping
empty placeholders, building the format fragment (`name: %+v, ` each), the
argument fragment (`name,` each) and the count. -/
def paramFold (params : List String) : String × String × Nat :=
  params.foldl
    (fun acc param =>
      if param = "" then acc
      else (acc.1 ++ (param ++ ": " ++ "%+v, "), acc.2.1 ++ (param ++ ","), acc.2.2 + 1))
    ("", "", 0)

/-- Source `GetParamLog`: the fold of `paramFold` with the trailing separators
trimmed. -/
def GetParamLog (params : List String) : String × String × Nat :=
  (strTrimSuffix (paramFold params).1 (", "), strTrimSuffix (paramFold params).2.1 (","),
   (paramFold params).2.2)

/-- Source `GetEntryLogInfo`: a `fmt.Printf` trace listing the named parameters
when the count from `GetParamLog` is non-zero, a plain `fmt.Println` trace
otherwise; the column is the entry position's column.  (The Go code reads
`GetParamLog` once into three locals; the repeated calls here denote the
same values.) -/
def GetEntryLogInfo (info : FuncInfo) : LogInfo :=
  if (GetParamLog info.Params).2.2 ≠ 0 then
    { Log := "fmt.Printf(\"" ++
        (("Starting func " ++ info.Name) ++ " with values: " ++ (GetParamLog info.Params).1) ++
        "\\n\", " ++ (GetParamLog info.Params).2.1 ++ ")",
      Col := info.EntryLogPos.column }
  else
    { Log := "fmt.Println(\"" ++ ("Starting func " ++ info.Name) ++ "\")",
      Col := info.EntryLogPos.column }

/-- Source `GetExitLogInfo`: the exit trace text with the (compensated) line
number, the column taken from the exit position at index `idx`. -/
def GetExitLogInfo (info : FuncInfo) (idx : Nat) (line : Nat) : LogInfo :=
  { Log := "fmt.Println(\"Exiting func " ++ info.Name ++ " from line " ++ toString line ++ "\")",
    Col := (info.ExitLogPos.getD idx default).column }

/-- The inner loop of `GenerateLogs` over one function's exit positions:
`idx` is the loop index, `count` the running trace-line counter.  Returns
the generated `(line, LogInfo)` pairs in generation order and the updated
counter. -/
def genExitLogs (info : FuncInfo) : List Position → Nat → Nat → List (Nat × LogInfo) × Nat
  | [], _, count => ([], count)
  | p :: rest, idx, count =>
    let e := (p.line, GetExitLogInfo info idx (p.line + count))
    let r := genExitLogs info rest (idx + 1) (count + 1)
    (e :: r.1, r.2)

/-- The loop of `GenerateLogs` over all functions, threading the running
trace-line counter (the entry trace is counted before the exit traces). -/
def GenerateLogsAux : List FuncInfo → Nat → List (Nat × LogInfo)
  | [], _ => []
  | info :: rest, count =>
    let entry := (info.EntryLogPos.line, GetEntryLogInfo info)
    let r := genExitLogs info info.ExitLogPos 0 (count + 1)
    (entry :: r.1) ++ GenerateLogsAux rest r.2

/-- Source `GenerateLogs`.  The Go code stores the generated logs in
`map[int][]LogInfo`, appending per key; we keep the flat list of
`(line, LogInfo)` pairs in generation order, and `lookupLogs` recovers the
per-line list in exactly the appended order. -/
def GenerateLogs (fnInfo : List FuncInfo) : List (Nat × LogInfo) :=
  GenerateLogsAux fnInfo 0

/-- Lookup `logs[line]` of the Go map: the logs generated for `line`, in
generation (append) order; the empty list models the missing key. -/
def lookupLogs (logs : List (Nat × LogInfo)) (line : Nat) : List LogInfo :=
  (logs.filter (fun pr => pr.1 == line)).map (fun pr => pr.2)

/-- Go `strings.Repeat s n` (for a non-negative count). -/
def stringsRepeat (s : String) : Nat → String
  | 0 => ""
  | n + 1 => s ++ stringsRepeat s n

/-- One output line for a generated log: `info.Col - 1` tab characters of
indentation followed by the log text.  In Go `strings.Repeat("\t", c-1)`
panics when `c - 1 < 0`, i.e. exactly when the column is `0`; `none` models
that panic. -/
def renderLogLine (info : LogInfo) : Option String :=
  if info.Col = 0 then none
  else some (stringsRepeat ("\t") (info.Col - 1) ++ info.Log)

/-- Render all logs attached to one line, failing if any rendering
panics. -/
def renderAll : List LogInfo → Option (List String)
  | [] => some []
  | li :: rest =>
    match renderLogLine li with
    | none => none
    | some s =>
      match renderAll rest with
      | none => none
      | some ss => some (s :: ss)

/-- The loop of `WriteLogsToFile`: for each original line (0-based index
`idx`, 1-based line number `idx+1`) first emit the logs attached to that
line number, then the original line verbatim. -/
def WriteLogsToFileAux (logs : List (Nat × LogInfo)) : List String → Nat → Option (List String)
  | [], _ => some []
  | line :: rest, idx =>
    match renderAll (lookupLogs logs (idx + 1)) with
    | none => none
    | some rendered =>
      match WriteLogsToFileAux logs rest (idx + 1) with
      | none => none
      | some out => some (rendered ++ line :: out)

/-- Source `WriteLogsToFile`, with the output file contents returned as a list of
lines (`none` models the `strings.Repeat` panic on a non-positive
column). -/
def WriteLogsToFile (contents : List String) (logs : List (Nat × LogInfo)) : Option (List String) :=
  WriteLogsToFileAux logs contents 0

/-!
`path/filepath` on a Unix host: `Base`, `Ext`, `Split`, `Clean` and `Dir`,
operating on `/`-separated paths with an empty volume name.
-/

/-- Trailing path separators of a path, removed by `filepath.Base`. -/
def stripTrailingSlashes (l : List Char) : List Char :=
  (l.reverse.dropWhile (fun c => c == '/')).reverse

/-- The part of the path after its last separator (the whole path when it
has no separator). -/
def afterLastSlash (l : List Char) : List Char :=
  (l.reverse.takeWhile (fun c => c != '/')).reverse

/-- Go `filepath.Base`: `"."` for the empty path, `"/"` when the path consists
entirely of separators, otherwise the last element of the path with
trailing separators removed. -/
def filepathBase (path : String) : String :=
  if path = "" then "."
  else if afterLastSlash (stripTrailingSlashes path.data) = [] then "/"
  else ⟨afterLastSlash (stripTrailingSlashes path.data)⟩

/-- The scan of `filepath.Ext`, over the reversed path: walk backwards from
the end; a separator means no extension, a dot means the extension is the
suffix from that dot on (`acc` holds the characters already walked, in
forward order). -/
def extLoop (acc : List Char) : List Char → List Char
  | [] => []
  | c :: rest =>
    if c = '/' then []
    else if c = '.' then c :: acc
    else extLoop (c :: acc) rest

/-- Go `filepath.Ext`: the suffix of the final element starting at its last
dot, empty when the final element has no dot. -/
def filepathExt (path : String) : String :=
  ⟨extLoop [] path.data.reverse⟩

/-- Go `filepath.Split`: the path split just after its last separator. -/
def filepathSplit (path : String) : String × String :=
  (⟨(path.data.reverse.dropWhile (fun c => c != '/')).reverse⟩,
   ⟨(path.data.reverse.takeWhile (fun c => c != '/')).reverse⟩)

/-- The backtracking loop of `path.Clean`'s `..` handling: with the output
buffer held in reverse and `popped` the character dropped most recently,
keep dropping characters while the buffer is longer than `dotdot` and the
most recently dropped character is not a separator (this removes the whole
final element together with the separator before it). -/
def popLoop (dotdot : Nat) : Char → List Char → List Char
  | _, [] => []
  | popped, c :: rest =>
    if dotdot < (c :: rest).length ∧ popped ≠ '/' then popLoop dotdot c rest
    else c :: rest

/-- The `..` case of `path.Clean`: either backtrack the output buffer to
the previous separator (dropping the final element), or (when not rooted
and nothing can be removed) append a literal `..` element and advance
`dotdot`. -/
def dotdotStep (rooted : Bool) (out : List Char) (dotdot : Nat) : List Char × Nat :=
  if dotdot < out.length then
    match out with
    | [] => ([], dotdot)
    | c :: rest => (popLoop dotdot c rest, dotdot)
  else if !rooted then
    let out2 := '.' :: '.' :: (if out.length != 0 then '/' :: out else out)
    (out2, out2.length)
  else (out, dotdot)

/-- Go `path.Clean`'s separator insertion before a new element: a separator is
appended unless the (reversed) output buffer is at the start (`/` for a
rooted path, empty otherwise). -/
def maybeSep (rooted : Bool) (out : List Char) : List Char :=
  if (rooted && out.length != 1) || (!rooted && out.length != 0) then '/' :: out else out

/-- The main loop of `path.Clean`.  The first `Bool` is the "inside an
element" mode (the inner copying loop of the Go code); the output buffer is
kept in reverse.  Go's byte index `r` is replaced by consuming the
remaining characters. -/
def cleanCore (rooted : Bool) : Bool → List Char → List Char → Nat → List Char
  | _, [], out, _ => out
  | true, '/' :: rest, out, dotdot => cleanCore rooted false rest out dotdot
  | true, c :: rest, out, dotdot => cleanCore rooted true rest (c :: out) dotdot
  | false, '/' :: rest, out, dotdot => cleanCore rooted false rest out dotdot
  | false, ['.'], out, _ => out
  | false, '.' :: '/' :: rest, out, dotdot => cleanCore rooted false ('/' :: rest) out dotdot
  | false, ['.', '.'], out, dotdot => (dotdotStep rooted out dotdot).1
  | false, '.' :: '.' :: '/' :: rest, out, dotdot =>
    let s := dotdotStep rooted out dotdot
    cleanCore rooted false ('/' :: rest) s.1 s.2
  | false, c :: rest, out, dotdot => cleanCore rooted true rest (c :: maybeSep rooted out) dotdot

/-- Go `path.Clean` (equals `filepath.Clean` on Unix, where the volume name is
empty): `"."` for the empty path, otherwise the lexically simplified
path. -/
def pathClean (path : String) : String :=
  if path = "" then "."
  else
    let rooted := path.data.head? = some '/'
    let out :=
      if rooted then cleanCore true false path.data.tail ['/'] 1
      else cleanCore false false path.data [] 0
    if out = [] then "." else ⟨out.reverse⟩

/-- Go `filepath.Dir`: everything up to and including the final separator,
cleaned; `"."` when the path contains no separator. -/
def filepathDir (path : String) : String :=
  pathClean ⟨(path.data.reverse.dropWhile (fun c => c != '/')).reverse⟩

/-- Source `GetNewPath`: the directory of the input joined with the base name
prefixed by the literal marker. -/
def GetNewPath (path : String) : String :=
  filepathDir path ++ "/" ++ ("debug_" ++ filepathBase path)

/-- Source `AddLogsToFile`: the whole pipeline after parsing.  `decls` are the
top-level declarations of the parsed input, `contents` its lines (the
result of `ReadFileLines`), `filePath` its path.  On success the result is
the output path (`GetNewPath`, bound to `newFilePath` in the Go code)
together with the output file's lines; `.error` models the process-fatal
aborts (`log.Fatal` in extraction, or the `strings.Repeat` panic in the
writer), in which case no output is produced. -/
def AddLogsToFile (decls : List Decl) (contents : List String) (filePath : String) :
    Except String (String × List String) :=
  match GetAllFuncInfo decls with
  | .error e => .error e
  | .ok allFuncInfo =>
    match WriteLogsToFile contents (GenerateLogs allFuncInfo) with
    | none => .error ("strings: negative Repeat count")
    | some out => .ok (GetNewPath filePath, out)

instance {ε α : Type} [DecidableEq ε] [DecidableEq α] : DecidableEq (Except ε α) := fun a b =>
  match a, b with
  | .ok x, .ok y => if h : x = y then isTrue (by rw [h]) else isFalse (by simp [h])
  | .error x, .error y => if h : x = y then isTrue (by rw [h]) else isFalse (by simp [h])
  | .ok _, .error _ => isFalse (by simp)
  | .error _, .ok _ => isFalse (by simp)

/-!
Specification-side definitions.  These follow the wording of the
specification (not the code) and are used on the right-hand side of the
claim theorems.
-/

/-- Strings joined with a separator between consecutive elements. -/
def joinSep (sep : String) : List String → String
  | [] => ""
  | [x] => x
  | x :: y :: rest => x ++ sep ++ joinSep sep (y :: rest)

/-- The entry trace as the specification describes it: a plain
`fmt.Println` of "Starting func name" when no parameter name is usable,
otherwise a `fmt.Printf` listing every non-empty parameter name with a
`%+v` placeholder, in declared order, taking exactly those names as
arguments. -/
def specEntryLog (info : FuncInfo) : String :=
  let names := info.Params.filter (fun p => p ≠ "")
  if names = [] then "fmt.Println(\"Starting func " ++ info.Name ++ "\")"
  else
    "fmt.Printf(\"Starting func " ++ info.Name ++ " with values: " ++
      joinSep (", ") (names.map (fun n => n ++ ": %+v")) ++ "\\n\", " ++
      joinSep (",") names ++ ")"

/-- The format fragments accumulated by `GetParamLog`'s loop, one
`name: %+v, ` piece per name, before the trailing separator is trimmed. -/
def concatFmt : List String → String
  | [] => ""
  | n :: rest => (n ++ ": " ++ "%+v, ") ++ concatFmt rest

/-- The argument fragments accumulated by `GetParamLog`'s loop, one
`name,` piece per name, before the trailing separator is trimmed. -/
def concatVal : List String → String
  | [] => ""
  | n :: rest => (n ++ ",") ++ concatVal rest

/-- The logs one function contributes, `count` being the number of trace
lines generated for the preceding functions: one entry trace followed by
one exit trace per exit position, the i-th exit trace displaying its raw
line plus `count + 1 + i` (the number of trace lines generated before
it). -/
def fnLogs (info : FuncInfo) (count : Nat) : List (Nat × LogInfo) :=
  (info.EntryLogPos.line, GetEntryLogInfo info) ::
    (List.range info.ExitLogPos.length).map (fun i =>
      ((info.ExitLogPos.getD i default).line,
        GetExitLogInfo info i ((info.ExitLogPos.getD i default).line + (count + 1 + i))))

/-- Per-function view of the whole generated log list, functions in
declaration order, the counter threaded through whole functions at a
time. -/
def genSpec : List FuncInfo → Nat → List (Nat × LogInfo)
  | [], _ => []
  | info :: rest, count => fnLogs info count ++ genSpec rest (count + 1 + info.ExitLogPos.length)

/-- Total number of trace lines generated for a list of functions: one
entry trace plus one exit trace per exit position, for each function. -/
def totalLogs (fnInfo : List FuncInfo) : Nat :=
  (fnInfo.map (fun i => 1 + i.ExitLogPos.length)).sum

/-- Number of trace lines generated for the first `k` functions. -/
def logsCountBefore (fnInfo : List FuncInfo) (k : Nat) : Nat :=
  totalLogs (fnInfo.take k)

/-- A generated log line as the specification's merge contract renders it:
`column − 1` indentation units followed by the trace text. -/
def specRender (info : LogInfo) : String :=
  stringsRepeat ("\t") (info.Col - 1) ++ info.Log

/-- The specification's merge contract: for every original line (1-based
number `idx + 1`), first the trace lines attached to it, in generation
order, each indented by `column − 1` units, then the original line
verbatim; lines with no attached traces are emitted verbatim. -/
def mergeSpecAux (logs : List (Nat × LogInfo)) : List String → Nat → List String
  | [], _ => []
  | line :: rest, idx =>
    (lookupLogs logs (idx + 1)).map specRender ++ line :: mergeSpecAux logs rest (idx + 1)

/-- The full merged output according to the specification's contract. -/
def mergeSpec (contents : List String) (logs : List (Nat × LogInfo)) : List String :=
  mergeSpecAux logs contents 0

/-- Whether `pre` is a prefix of `s`. -/
def strStartsWith (s pre : String) : Bool :=
  pre.data.isPrefixOf s.data

/-- Whether `pat` is a prefix of some suffix of `l`. -/
def listContains (pat : List Char) : List Char → Bool
  | [] => pat.isPrefixOf []
  | c :: rest => pat.isPrefixOf (c :: rest) || listContains pat rest

/-- Whether `pat` occurs as a contiguous substring of `s`. -/
def strContains (s pat : String) : Bool :=
  listContains pat.data s.data

/-- A line with its leading tab indentation removed. -/
def dropIndent (s : String) : String :=
  ⟨s.data.dropWhile (fun c => c == '\t')⟩

/-- Whether a line matches one of the generated entry/exit trace text
patterns (after stripping the inserted indentation). -/
def isTraceLine (s : String) : Bool :=
  strStartsWith (dropIndent s) "fmt.Println(\"Starting func " ||
  strStartsWith (dropIndent s) "fmt.Printf(\"Starting func " ||
  strStartsWith (dropIndent s) "fmt.Println(\"Exiting func "

/-- The top-level function declarations with a syntactically valid body, in
source order. -/
def validFuncs (decls : List Decl) : List FuncDecl :=
  decls.filterMap (fun d =>
    match d with
    | .funcDecl fn => if IsFuncBodyValid fn.body then some fn else none
    | .other => none)

/-- The fields of a possibly-nil field list. -/
def fieldsOf : Option FieldList → List Field
  | none => []
  | some fl => fl.list

/-- A resolved position produced by the parser for an existing token: line
and column are both 1-based, hence positive. -/
def posValid (p : Position) : Bool :=
  1 ≤ p.line && 1 ≤ p.column

mutual
/-- All positions in a statement tree are valid parser positions. -/
def stmtPosValid : Stmt → Bool
  | .ret p children => posValid p && stmtListPosValid children
  | .other p children => posValid p && stmtListPosValid children
def stmtListPosValid : StmtList → Bool
  | .nil => true
  | .cons s rest => stmtPosValid s && stmtListPosValid rest
end

/-- All positions in a statement list are valid parser positions. -/
def stmtsPosValid : List Stmt → Bool
  | [] => true
  | s :: rest => stmtPosValid s && stmtsPosValid rest

/-- All resolved positions of a block are valid parser positions. -/
def blockPosValid (b : BlockStmt) : Bool :=
  (match b.lbrace with | some p => posValid p | none => true) &&
  (match b.rbrace with | some p => posValid p | none => true) &&
  stmtsPosValid b.list

/-- All resolved positions of a declaration are valid parser positions
(what the Go parser guarantees for a successfully parsed file). -/
def declPosValid : Decl → Bool
  | .funcDecl fn =>
    match fn.body with
    | some b => blockPosValid b
    | none => true
  | .other => true

/-!
Concrete sample inputs used by witnesses and counterexamples.  Each models
a small Go source file; positions are the 1-based line/column values
`go/parser` produces for it (one indentation level is one tab, i.e. one
byte).
-/

/-- Body of the sample function
`func A(x int) \x7b if x == 5 \x7b return \x7d; fmt.Println("x was not 5") \x7d`
written over six lines: the `if` statement on line 2 column 2 with the
nested `return` on line 3 column 3, the print call on line 5 column 2, the
braces at (1,15) and (6,1). -/
def c1body : BlockStmt :=
  ⟨some ⟨1, 15⟩, some ⟨6, 1⟩,
   [.other ⟨2, 2⟩ (.cons (.ret ⟨3, 3⟩ .nil) .nil), .other ⟨5, 2⟩ .nil]⟩

/-- The sample declaration `func A(x int)` with body `c1body`. -/
def c1fn : FuncDecl := ⟨some ("A"), some ⟨[⟨["x"]⟩]⟩, none, some c1body⟩

/-- The record `ExtractFuncInfo` produces for `c1fn`. -/
def c1info : FuncInfo := ⟨"A", ["x"], [], ⟨2, 2⟩, [⟨3, 3⟩, ⟨6, 2⟩]⟩

/-- Body of the sample function `func f() \x7b \x7d` with an entirely empty
body: the opening brace at (1,10), the closing brace at (2,1). -/
def c6body : BlockStmt := ⟨some ⟨1, 10⟩, some ⟨2, 1⟩, []⟩

/-- The sample declaration `func f()` with the empty body `c6body`. -/
def c6fn : FuncDecl := ⟨some ("f"), some ⟨[]⟩, none, some c6body⟩

/-- The record `ExtractFuncInfo` produces for `c6fn`. -/
def c6info : FuncInfo := ⟨"f", [], [], ⟨1, 10⟩, [⟨2, 1⟩]⟩

/-- A sample declaration with a grouped two-name parameter field
(`func g(a, b int)`) and a valid body. -/
def c8fn : FuncDecl :=
  ⟨some ("g"), some ⟨[⟨["a", "b"]⟩]⟩, none, some ⟨some ⟨1, 18⟩, some ⟨3, 1⟩, [.other ⟨2, 2⟩ .nil]⟩⟩

/-- A sample declaration without a body (a forward declaration). -/
def c7fn : FuncDecl := ⟨some ("h"), some ⟨[]⟩, none, none⟩

/-- The record extracted for a sample function `func f(a int)` with one
named parameter. -/
def c5info : FuncInfo := ⟨"f", ["a"], [], ⟨2, 2⟩, [⟨3, 2⟩]⟩

/-- A sample file whose function body itself contains a line identical to
the entry trace the logger generates for it:
line 1 `package main`, line 2 `func f() \x7b`, line 3 (one tab)
`fmt.Println("Starting func f")`, line 4 `\x7d`. -/
def c4fn : FuncDecl :=
  ⟨some ("f"), some ⟨[]⟩, none, some ⟨some ⟨2, 10⟩, some ⟨4, 1⟩, [.other ⟨3, 2⟩ .nil]⟩⟩

/-- The lines of the `c4fn` sample file. -/
def c4contents : List String :=
  ["package main", "func f() \x7b", "\tfmt.Println(\"Starting func f\")", "\x7d"]

/-- The record extracted for `c4fn`. -/
def c4info : FuncInfo := ⟨"f", [], [], ⟨3, 2⟩, [⟨4, 2⟩]⟩

/-- The instrumented output for the `c4fn` sample file. -/
def c4out : List String :=
  ["package main", "func f() \x7b",
   "\tfmt.Println(\"Starting func f\")",
   "\tfmt.Println(\"Starting func f\")",
   "\tfmt.Println(\"Exiting func f from line 5\")",
   "\x7d"]

/-- A two-line file `func f() \x7b` / `\x7d` whose only function is the
empty-body `c6fn`; none of its lines looks like a generated trace. -/
def c4wcontents : List String := ["func f() \x7b", "\x7d"]

/-- The instrumented output for `c4wcontents` with the logs of `c6fn`:
the entry trace indented to column 10 (nine tabs), the exit trace at
column 1. -/
def c4wout : List String :=
  ["\t\t\t\t\t\t\t\t\tfmt.Println(\"Starting func f\")", "func f() \x7b",
   "fmt.Println(\"Exiting func f from line 3\")", "\x7d"]

/-- Logs used by the C3 witness: one log line attached to line 2. -/
def c3logs : List (Nat × LogInfo) := [(2, ⟨"fmt.Println(\"Starting func f\")", 2⟩)]

/-- Contents used by the C3 witness. -/
def c3contents : List String := ["func f() \x7b", "\tx()", "\x7d"]

/-- The merged output for the C3 witness. -/
def c3out : List String :=
  ["func f() \x7b", "\tfmt.Println(\"Starting func f\")", "\tx()", "\x7d"]

/-!
Helper lemmas.
-/

theorem findReturnStmts_eq (fn : FuncDecl) (body : BlockStmt) (hb : fn.body = some body) :
    FindReturnStmts fn = stmtsReturns body.list := by
  simp [FindReturnStmts, hb]

/-- Inversion of `ExtractFuncInfo` on the successful path: the fields of the
produced record in terms of the declaration. -/
theorem extractFuncInfo_ok_some (fn : FuncDecl) (body : BlockStmt) (lb rb : Position)
    (hb : fn.body = some body) (hl : body.lbrace = some lb) (hr : body.rbrace = some rb)
    (info : FuncInfo) (hok : ExtractFuncInfo fn = .ok (some info)) :
    info.Name = fn.name.getD ("") ∧
    info.EntryLogPos = (match body.list with | [] => lb | s :: _ => s.pos) ∧
    info.ExitLogPos =
      (if (stmtsReturns body.list).length = 0 || !lastIsReturn body.list then
        stmtsReturns body.list ++
          [(match body.list.getLast? with
            | some s => { line := rb.line, column := s.pos.column }
            | none => rb : Position)]
      else stmtsReturns body.list) := by
  unfold ExtractFuncInfo at hok
  rw [hb] at hok
  simp only at hok
  rw [hl, hr] at hok
  cases hps : GetParamNames fn.params with
  | error e => rw [hps] at hok; simp at hok
  | ok ps =>
    rw [hps] at hok
    cases hrs : GetParamNames fn.results with
    | error e => rw [hrs] at hok; simp at hok
    | ok rs =>
      rw [hrs] at hok
      simp only [Except.ok.injEq, Option.some.injEq] at hok
      subst hok
      refine ⟨rfl, rfl, rfl⟩

/-- A body whose last top-level statement is a return statement contains at
least one return. -/
theorem stmtsReturns_ne_nil_of_lastIsReturn :
    ∀ (l : List Stmt), lastIsReturn l = true → stmtsReturns l ≠ []
  | [], h => by simp [lastIsReturn] at h
  | [s], h => by
    cases s with
    | ret p cs => simp [stmtsReturns, stmtReturns]
    | other p cs => simp [lastIsReturn] at h
  | s :: t :: r, h => by
    have ih := stmtsReturns_ne_nil_of_lastIsReturn (t :: r) (by
      simpa [lastIsReturn, List.getLast?_cons_cons] using h)
    simp only [stmtsReturns]
    intro hcontra
    exact ih (List.append_eq_nil.mp hcontra).2

/-!
C1.
-/

/-- C1: for every top-level function declaration with a syntactically valid
body, the number of recorded exit positions equals the number of return
statements found anywhere in the body (nested included), plus exactly one
synthetic exit at the closing-brace line if and only if no return was found
or the last top-level statement is not a return; when the last top-level
statement is a return, no synthetic exit is added. -/
theorem c1_exit_position_count (fn : FuncDecl) (body : BlockStmt) (lb rb : Position)
    (hb : fn.body = some body) (hl : body.lbrace = some lb) (hr : body.rbrace = some rb)
    (info : FuncInfo) (hok : ExtractFuncInfo fn = .ok (some info)) :
    info.ExitLogPos.length = (FindReturnStmts fn).length +
      (if FindReturnStmts fn = [] ∨ lastIsReturn body.list = false then 1 else 0) ∧
    (lastIsReturn body.list = true → info.ExitLogPos = FindReturnStmts fn) ∧
    (lastIsReturn body.list = false →
      info.ExitLogPos.getLast?.map Position.line = some rb.line ∧
      info.ExitLogPos.length = (FindReturnStmts fn).length + 1) := by
  obtain ⟨-, -, hexits⟩ := extractFuncInfo_ok_some fn body lb rb hb hl hr info hok
  rw [findReturnStmts_eq fn body hb]
  cases hlast : lastIsReturn body.list with
  | true =>
    have hne := stmtsReturns_ne_nil_of_lastIsReturn body.list hlast
    have hlen : (stmtsReturns body.list).length ≠ 0 := by
      simpa [List.length_eq_zero] using hne
    rw [hlast] at hexits
    simp only [hlen, Bool.not_true, Bool.or_false, if_neg, decide_eq_true_eq] at hexits
    rw [if_neg (by simp [hne]), hexits]
    simp
  | false =>
    rw [hlast] at hexits
    simp only [Bool.not_false, Bool.or_true, if_pos] at hexits
    rw [if_pos (by right; rfl), hexits]
    refine ⟨by simp, by simp, fun _ => ⟨?_, by simp⟩⟩
    rw [List.getLast?_concat]
    cases body.list.getLast? <;> simp

/-- A function without a syntactically valid body is ignored by
`ExtractFuncInfo` (second return value `false` in the Go code). -/
theorem extractFuncInfo_invalid (fn : FuncDecl) (h : IsFuncBodyValid fn.body = false) :
    ExtractFuncInfo fn = .ok none := by
  obtain ⟨name, params, results, body⟩ := fn
  cases body with
  | none => rfl
  | some b =>
    obtain ⟨lb, rb, list⟩ := b
    cases lb with
    | none => rfl
    | some lbp =>
      cases rb with
      | none => rfl
      | some rbp => simp [IsFuncBodyValid] at h

/-- A function with a syntactically valid body is never ignored: extraction
either aborts fatally or produces a record. -/
theorem extractFuncInfo_valid_ne_none (fn : FuncDecl) (h : IsFuncBodyValid fn.body = true) :
    ExtractFuncInfo fn ≠ .ok none := by
  obtain ⟨name, params, results, body⟩ := fn
  cases body with
  | none => simp [IsFuncBodyValid] at h
  | some b =>
    obtain ⟨lb, rb, list⟩ := b
    cases lb with
    | none => simp [IsFuncBodyValid] at h
    | some lbp =>
      cases rb with
      | none => simp [IsFuncBodyValid] at h
      | some rbp =>
        cases hps : GetParamNames params with
        | error e => simp [ExtractFuncInfo, hps]
        | ok ps =>
          cases hrs : GetParamNames results with
          | error e => simp [ExtractFuncInfo, hps, hrs]
          | ok rs => simp [ExtractFuncInfo, hps, hrs]

/-- On the successful path, the number of records equals the number of
function declarations with a valid body. -/
theorem getAllFuncInfo_length :
    ∀ (decls : List Decl) (infos : List FuncInfo), GetAllFuncInfo decls = .ok infos →
      infos.length = (validFuncs decls).length
  | [], infos, h => by
    simp only [GetAllFuncInfo, Except.ok.injEq] at h
    subst h; rfl
  | .other :: rest, infos, h => by
    have ih := getAllFuncInfo_length rest infos (by simpa [GetAllFuncInfo] using h)
    simpa [validFuncs] using ih
  | .funcDecl fn :: rest, infos, h => by
    simp only [GetAllFuncInfo] at h
    cases hval : IsFuncBodyValid fn.body with
    | false =>
      rw [extractFuncInfo_invalid fn hval] at h
      have ih := getAllFuncInfo_length rest infos h
      simpa [validFuncs, hval] using ih
    | true =>
      cases hex : ExtractFuncInfo fn with
      | error e => rw [hex] at h; simp at h
      | ok oinfo =>
        cases oinfo with
        | none => exact absurd hex (extractFuncInfo_valid_ne_none fn hval)
        | some info =>
          rw [hex] at h
          cases hrest : GetAllFuncInfo rest with
          | error e => rw [hrest] at h; simp at h
          | ok infos2 =>
            rw [hrest] at h
            simp only [Except.ok.injEq] at h
            subst h
            have ih := getAllFuncInfo_length rest infos2 hrest
            simpa [validFuncs, hval] using ih

/-!
C7.
-/

/-- C7: a record is produced only for function declarations whose body
exists with both braces resolvable (`IsFuncBodyValid`).  A declaration
lacking such a body is silently excluded: removing it from the declaration
list leaves the result of `GetAllFuncInfo` unchanged — no record, no
traces, no abort — and processing continues with the remaining
declarations in order; on the successful path there is exactly one record
per valid-bodied function declaration. -/
theorem c7_bodyless_excluded (ds1 ds2 : List Decl) (fn : FuncDecl)
    (h : IsFuncBodyValid fn.body = false) :
    GetAllFuncInfo (ds1 ++ Decl.funcDecl fn :: ds2) = GetAllFuncInfo (ds1 ++ ds2) ∧
    ∀ infos, GetAllFuncInfo (ds1 ++ ds2) = .ok infos →
      infos.length = (validFuncs (ds1 ++ ds2)).length := by
  refine ⟨?_, fun infos hok => getAllFuncInfo_length _ infos hok⟩
  induction ds1 with
  | nil =>
    simp only [List.nil_append, GetAllFuncInfo, extractFuncInfo_invalid fn h]
  | cons d rest ih =>
    cases d with
    | other => simpa [GetAllFuncInfo] using ih
    | funcDecl g =>
      simp only [List.cons_append, GetAllFuncInfo]
      cases ExtractFuncInfo g with
      | error e => rfl
      | ok oinfo =>
        cases oinfo with
        | none => exact ih
        | some info =>
          simp only [List.append_eq] at ih ⊢
          rw [ih]

/-- Witness for C7: a forward declaration placed between two valid
functions contributes nothing, and both remaining functions are
recorded. -/
theorem c7_witness :
    (IsFuncBodyValid c7fn.body = false) ∧
    GetAllFuncInfo ([.funcDecl c1fn] ++ Decl.funcDecl c7fn :: [.funcDecl c6fn]) =
      GetAllFuncInfo ([.funcDecl c1fn] ++ [.funcDecl c6fn]) := by
  refine ⟨by decide, ?_⟩
  exact (c7_bodyless_excluded [.funcDecl c1fn] [.funcDecl c6fn] c7fn (by decide)).1

/-!
C8.
-/

/-- A field binding at least two names makes name extraction fatal. -/
theorem extractNameFromField_error (field : Field) (h : 2 ≤ field.names.length) :
    ExtractNameFromField field = .error ("unknown parameter type") := by
  unfold ExtractNameFromField
  cases field with
  | mk names =>
    match names with
    | [] => simp at h
    | [n] => simp at h
    | a :: b :: t => rfl

/-- A fatal field anywhere in a field list makes the whole extraction
fatal. -/
theorem extractNamesFromFields_error :
    ∀ (fields : List Field) (field : Field), field ∈ fields → 2 ≤ field.names.length →
      ∃ e, extractNamesFromFields fields = .error e
  | [], field, hmem, _ => absurd hmem (List.not_mem_nil field)
  | f :: rest, field, hmem, hn => by
    rcases List.mem_cons.mp hmem with rfl | hmem2
    · exact ⟨"unknown parameter type", by
        simp [extractNamesFromFields, extractNameFromField_error field hn]⟩
    · cases hf : ExtractNameFromField f with
      | error e => exact ⟨e, by simp [extractNamesFromFields, hf]⟩
      | ok n =>
        obtain ⟨e, he⟩ := extractNamesFromFields_error rest field hmem2 hn
        exact ⟨e, by simp [extractNamesFromFields, hf, he]⟩

/-- A valid-bodied function with a grouped multi-name parameter or result
field makes `ExtractFuncInfo` abort fatally. -/
theorem extractFuncInfo_error_of_bad_field (fn : FuncDecl) (field : Field)
    (hvalid : IsFuncBodyValid fn.body = true)
    (hfield : field ∈ fieldsOf fn.params ++ fieldsOf fn.results)
    (hnames : 2 ≤ field.names.length) :
    ∃ e, ExtractFuncInfo fn = .error e := by
  obtain ⟨name, params, results, body⟩ := fn
  cases body with
  | none => simp [IsFuncBodyValid] at hvalid
  | some b =>
    obtain ⟨lb, rb, list⟩ := b
    cases lb with
    | none => simp [IsFuncBodyValid] at hvalid
    | some lbp =>
      cases rb with
      | none => simp [IsFuncBodyValid] at hvalid
      | some rbp =>
        rcases List.mem_append.mp hfield with hp | hres
        · cases params with
          | none => simp [fieldsOf] at hp
          | some fl =>
            obtain ⟨e, he⟩ := extractNamesFromFields_error fl.list field hp hnames
            have hgp : GetParamNames (some fl) = .error e := by simpa [GetParamNames] using he
            exact ⟨e, by simp [ExtractFuncInfo, hgp]⟩
        · cases hps : GetParamNames params with
          | error e => exact ⟨e, by simp [ExtractFuncInfo, hps]⟩
          | ok ps =>
            cases results with
            | none => simp [fieldsOf] at hres
            | some fl =>
              obtain ⟨e, he⟩ := extractNamesFromFields_error fl.list field hres hnames
              have hgr : GetParamNames (some fl) = .error e := by simpa [GetParamNames] using he
              exact ⟨e, by simp [ExtractFuncInfo, hps, hgr]⟩

/-- A fatal extraction for any member declaration makes the whole
`GetAllFuncInfo` fatal. -/
theorem getAllFuncInfo_error_of_mem :
    ∀ (decls : List Decl) (fn : FuncDecl), Decl.funcDecl fn ∈ decls →
      (∃ e, ExtractFuncInfo fn = .error e) → ∃ e, GetAllFuncInfo decls = .error e
  | [], fn, hmem, _ => absurd hmem (List.not_mem_nil _)
  | .other :: rest, fn, hmem, herr => by
    have hmem2 : Decl.funcDecl fn ∈ rest := by
      rcases List.mem_cons.mp hmem with heq | h2
      · cases heq
      · exact h2
    obtain ⟨e, he⟩ := getAllFuncInfo_error_of_mem rest fn hmem2 herr
    exact ⟨e, by simp [GetAllFuncInfo, he]⟩
  | .funcDecl g :: rest, fn, hmem, herr => by
    cases hg : ExtractFuncInfo g with
    | error e => exact ⟨e, by simp [GetAllFuncInfo, hg]⟩
    | ok oinfo =>
      have hmem2 : Decl.funcDecl fn ∈ rest := by
        rcases List.mem_cons.mp hmem with heq | h2
        · obtain ⟨e, he⟩ := herr
          have : g = fn := by injection heq with h2; exact h2.symm
          rw [this] at hg
          rw [hg] at he
          cases he
        · exact h2
      obtain ⟨e, he⟩ := getAllFuncInfo_error_of_mem rest fn hmem2 herr
      cases oinfo with
      | none => exact ⟨e, by simp [GetAllFuncInfo, hg, he]⟩
      | some info => exact ⟨e, by simp [GetAllFuncInfo, hg, he]⟩

/-- C8: if any parameter or result field of any processed (valid-bodied)
function declaration binds more than one name, the whole run aborts with a
fatal diagnostic before any output is produced — `AddLogsToFile` yields an
error and no output lines, with no per-function recovery. -/
theorem c8_grouped_params_fatal (decls : List Decl) (contents : List String) (path : String)
    (fn : FuncDecl) (field : Field)
    (hmem : Decl.funcDecl fn ∈ decls) (hvalid : IsFuncBodyValid fn.body = true)
    (hfield : field ∈ fieldsOf fn.params ++ fieldsOf fn.results)
    (hnames : 2 ≤ field.names.length) :
    ∃ e, AddLogsToFile decls contents path = .error e := by
  obtain ⟨e, he⟩ := getAllFuncInfo_error_of_mem decls fn hmem
    (extractFuncInfo_error_of_bad_field fn field hvalid hfield hnames)
  exact ⟨e, by simp [AddLogsToFile, he]⟩

/-- Witness for C8 at the declaration `func g(a, b int)` with a valid
body. -/
theorem c8_witness :
    ∃ e, AddLogsToFile [.funcDecl c8fn] ["package main"] "g.go" = .error e :=
  c8_grouped_params_fatal [.funcDecl c8fn] ["package main"] "g.go" c8fn ⟨["a", "b"]⟩
    (List.mem_singleton.mpr rfl) (by decide) (by decide) (by decide)

/-!
C6.
-/

/-- C6 counterexample: for the empty-body function `c6fn` (opening brace at
column 10, closing brace at column 1) the synthetic exit appended at the
closing-brace line has column 1 — the closing brace's own column — and not
the indentation column 10 of the opening brace, refuting the claimed column
at this input. -/
theorem c6_counterexample :
    ExtractFuncInfo c6fn = .ok (some c6info) ∧
    c6fn.body.map (fun b => b.lbrace) = some (some ⟨1, 10⟩) ∧
    c6fn.body.map (fun b => b.list.isEmpty) = some true ∧
    ¬ (∀ p ∈ c6info.ExitLogPos, p.column = 10) := by decide

/-- C6 (amended): for every recorded function whose body contains no
statements, the entry position is the opening brace's position and the
single synthetic exit position is the closing brace's own position — its
line and its column both come from the closing brace, not from the opening
brace's indentation. -/
theorem c6_empty_body_positions (fn : FuncDecl) (body : BlockStmt) (lb rb : Position)
    (hb : fn.body = some body) (hl : body.lbrace = some lb) (hr : body.rbrace = some rb)
    (hempty : body.list = []) (info : FuncInfo)
    (hok : ExtractFuncInfo fn = .ok (some info)) :
    info.EntryLogPos = lb ∧ info.ExitLogPos = [rb] := by
  obtain ⟨-, hentry, hexits⟩ := extractFuncInfo_ok_some fn body lb rb hb hl hr info hok
  rw [hempty] at hentry hexits
  refine ⟨hentry, ?_⟩
  simpa [stmtsReturns, lastIsReturn] using hexits

/-- Witness for C6's amended statement at the concrete empty-body
function. -/
theorem c6_witness : c6info.EntryLogPos = ⟨1, 10⟩ ∧ c6info.ExitLogPos = [⟨2, 1⟩] :=
  c6_empty_body_positions c6fn c6body ⟨1, 10⟩ ⟨2, 1⟩ rfl rfl rfl rfl c6info (by decide)

/-!
Generated-log characterisation (used by C2 and C5).
-/

/-- The inner exit-log loop produces one pair per exit position. -/
theorem genExitLogs_fst_length (info : FuncInfo) :
    ∀ (exits : List Position) (idx count : Nat),
      (genExitLogs info exits idx count).1.length = exits.length
  | [], _, _ => rfl
  | p :: rest, idx, count => by
    simp [genExitLogs, genExitLogs_fst_length info rest (idx + 1) (count + 1)]

/-- The inner exit-log loop advances the counter once per exit. -/
theorem genExitLogs_snd (info : FuncInfo) :
    ∀ (exits : List Position) (idx count : Nat),
      (genExitLogs info exits idx count).2 = count + exits.length
  | [], _, _ => by simp [genExitLogs]
  | p :: rest, idx, count => by
    simp [genExitLogs, genExitLogs_snd info rest (idx + 1) (count + 1)]
    omega

/-- Element `i` of the inner exit-log loop: loop index `idx + i`, displayed
line `raw line + count + i`. -/
theorem genExitLogs_fst_getElem (info : FuncInfo) :
    ∀ (exits : List Position) (idx count i : Nat) (p : Position), exits[i]? = some p →
      (genExitLogs info exits idx count).1[i]? =
        some (p.line, GetExitLogInfo info (idx + i) (p.line + count + i))
  | [], _, _, i, p, hp => by simp at hp
  | q :: rest, idx, count, 0, p, hp => by
    simp only [List.getElem?_cons_zero, Option.some.injEq] at hp
    subst hp
    simp [genExitLogs]
  | q :: rest, idx, count, i + 1, p, hp => by
    simp only [List.getElem?_cons_succ] at hp
    have ih := genExitLogs_fst_getElem info rest (idx + 1) (count + 1) i p hp
    simp only [genExitLogs, List.getElem?_cons_succ]
    rw [ih]
    have h1 : idx + 1 + i = idx + (i + 1) := by omega
    have h2 : p.line + (count + 1) + i = p.line + count + (i + 1) := by omega
    rw [h1, h2]

/-- One trace count step: the count consumed by one function. -/
theorem logsCountBefore_cons (a : FuncInfo) (l : List FuncInfo) (j : Nat) :
    logsCountBefore (a :: l) (j + 1) = 1 + a.ExitLogPos.length + logsCountBefore l j := by
  simp [logsCountBefore, totalLogs, List.take_succ_cons]

theorem generateLogsAux_length (fnInfo : List FuncInfo) :
    ∀ (count : Nat), (GenerateLogsAux fnInfo count).length = totalLogs fnInfo := by
  induction fnInfo with
  | nil => intro count; rfl
  | cons info rest ih =>
    intro count
    simp [GenerateLogsAux, genExitLogs_fst_length, ih, totalLogs]
    omega

/-- The entry trace of the k-th function sits at position
`logsCountBefore fnInfo k` of the generated list. -/
theorem generateLogsAux_getElem_entry (fnInfo : List FuncInfo) :
    ∀ (count k : Nat) (info : FuncInfo), fnInfo[k]? = some info →
      (GenerateLogsAux fnInfo count)[logsCountBefore fnInfo k]? =
        some (info.EntryLogPos.line, GetEntryLogInfo info) := by
  induction fnInfo with
  | nil => intro count k info hk; simp at hk
  | cons info0 rest ih =>
    intro count k info hk
    cases k with
    | zero =>
      simp only [List.getElem?_cons_zero, Option.some.injEq] at hk
      subst hk
      simp [GenerateLogsAux, logsCountBefore, totalLogs]
    | succ j =>
      simp only [List.getElem?_cons_succ] at hk
      rw [logsCountBefore_cons]
      simp only [GenerateLogsAux, List.cons_append]
      have harith : 1 + info0.ExitLogPos.length + logsCountBefore rest j
          = (info0.ExitLogPos.length + logsCountBefore rest j) + 1 := by omega
      rw [harith, List.getElem?_cons_succ]
      have hskip : (genExitLogs info0 info0.ExitLogPos 0 (count + 1)).1.length
          ≤ info0.ExitLogPos.length + logsCountBefore rest j := by
        rw [genExitLogs_fst_length]; omega
      rw [List.getElem?_append_right hskip]
      rw [genExitLogs_fst_length]
      have harith2 : info0.ExitLogPos.length + logsCountBefore rest j
          - info0.ExitLogPos.length = logsCountBefore rest j := by omega
      rw [harith2]
      exact ih _ j info hk

/-- The i-th exit trace of the k-th function sits at position
`logsCountBefore fnInfo k + 1 + i` of the generated list and displays its
raw line plus `count + (logsCountBefore fnInfo k + 1 + i)`. -/
theorem generateLogsAux_getElem_exit (fnInfo : List FuncInfo) :
    ∀ (count k i : Nat) (info : FuncInfo) (p : Position),
      fnInfo[k]? = some info → info.ExitLogPos[i]? = some p →
      (GenerateLogsAux fnInfo count)[logsCountBefore fnInfo k + 1 + i]? =
        some (p.line, GetExitLogInfo info i
          (p.line + count + (logsCountBefore fnInfo k + 1 + i))) := by
  induction fnInfo with
  | nil => intro count k i info p hk hi; simp at hk
  | cons info0 rest ih =>
    intro count k i info p hk hi
    cases k with
    | zero =>
      simp only [List.getElem?_cons_zero, Option.some.injEq] at hk
      subst hk
      have hcb : logsCountBefore (info0 :: rest) 0 = 0 := by
        simp [logsCountBefore, totalLogs]
      rw [hcb]
      simp only [GenerateLogsAux, List.cons_append]
      have h01 : (0 : Nat) + 1 + i = i + 1 := by omega
      rw [h01, List.getElem?_cons_succ]
      have hilen : i < info0.ExitLogPos.length := (List.getElem?_eq_some.mp hi).1
      rw [List.getElem?_append_left (by rw [genExitLogs_fst_length]; omega)]
      rw [genExitLogs_fst_getElem info0 info0.ExitLogPos 0 (count + 1) i p hi]
      congr 3 <;> omega
    | succ j =>
      simp only [List.getElem?_cons_succ] at hk
      rw [logsCountBefore_cons]
      simp only [GenerateLogsAux, List.cons_append]
      have harith : 1 + info0.ExitLogPos.length + logsCountBefore rest j + 1 + i
          = (info0.ExitLogPos.length + (logsCountBefore rest j + 1 + i)) + 1 := by omega
      rw [harith, List.getElem?_cons_succ]
      rw [List.getElem?_append_right (by rw [genExitLogs_fst_length]; omega)]
      rw [genExitLogs_fst_length]
      have harith2 : info0.ExitLogPos.length + (logsCountBefore rest j + 1 + i)
          - info0.ExitLogPos.length = logsCountBefore rest j + 1 + i := by omega
      rw [harith2]
      rw [genExitLogs_snd]
      rw [ih (count + 1 + info0.ExitLogPos.length) j i info p hk hi]
      congr 3
      omega

/-!
String helpers for the entry-trace characterisation.
-/

theorem str_ext {a b : String} (h : a.data = b.data) : a = b := by
  cases a; cases b; exact congrArg String.mk h

theorem str_empty_append (s : String) : "" ++ s = s :=
  str_ext (by simp)

theorem strTrimSuffix_append (s suf : String) : strTrimSuffix (s ++ suf) suf = s := by
  unfold strTrimSuffix
  rw [if_pos (by simp [List.isSuffixOf_iff_suffix, String.data_append])]
  apply str_ext
  show ((s ++ suf).data).take ((s ++ suf).data.length - suf.data.length) = s.data
  rw [String.data_append]
  have hlen : (s.data ++ suf.data).length - suf.data.length = s.data.length := by simp
  rw [hlen]
  exact List.take_left' rfl

theorem concatFmt_factor :
    ∀ (n : String) (rest : List String),
      concatFmt (n :: rest) = joinSep (", ") ((n :: rest).map (fun x => x ++ ": %+v")) ++ ", "
  | n, [] => by
    apply str_ext
    simp [concatFmt, joinSep]
  | n, m :: rest => by
    have ih := concatFmt_factor m rest
    show (n ++ ": " ++ "%+v, ") ++ concatFmt (m :: rest) = _
    rw [ih]
    apply str_ext
    simp [joinSep]

theorem concatVal_factor :
    ∀ (n : String) (rest : List String),
      concatVal (n :: rest) = joinSep (",") (n :: rest) ++ ","
  | n, [] => by
    apply str_ext
    simp [concatVal, joinSep]
  | n, m :: rest => by
    have ih := concatVal_factor m rest
    show (n ++ ",") ++ concatVal (m :: rest) = _
    rw [ih]
    apply str_ext
    simp [joinSep]

/-- The loop of `GetParamLog`, in closed form: only the non-empty names
contribute, in order. -/
theorem getParamLog_foldl :
    ∀ (params : List String) (a1 a2 : String) (c : Nat),
      params.foldl
        (fun acc param =>
          if param = "" then acc
          else (acc.1 ++ (param ++ ": " ++ "%+v, "), acc.2.1 ++ (param ++ ","), acc.2.2 + 1))
        (a1, a2, c)
      = (a1 ++ concatFmt (params.filter (fun p => p ≠ "")),
         a2 ++ concatVal (params.filter (fun p => p ≠ "")),
         c + (params.filter (fun p => p ≠ "")).length)
  | [], a1, a2, c => by
    apply Prod.ext
    · exact (str_ext (by simp [concatFmt])).symm
    · exact Prod.ext (str_ext (by simp [concatVal])).symm (by simp)
  | p :: rest, a1, a2, c => by
    by_cases hp : p = ""
    · rw [List.foldl_cons, if_pos hp]
      rw [getParamLog_foldl rest a1 a2 c]
      simp [List.filter_cons, hp]
    · rw [List.foldl_cons, if_neg hp]
      rw [getParamLog_foldl rest (a1 ++ (p ++ ": " ++ "%+v, ")) (a2 ++ (p ++ ",")) (c + 1)]
      have hf : (p :: rest).filter (fun p => p ≠ "") = p :: rest.filter (fun p => p ≠ "") := by
        simp [List.filter_cons, hp]
      rw [hf]
      refine Prod.ext ?_ (Prod.ext ?_ ?_)
      · show a1 ++ (p ++ ": " ++ "%+v, ") ++ concatFmt (rest.filter (fun p => p ≠ ""))
          = a1 ++ concatFmt (p :: rest.filter (fun p => p ≠ ""))
        rw [String.append_assoc]
        rfl
      · show a2 ++ (p ++ ",") ++ concatVal (rest.filter (fun p => p ≠ ""))
          = a2 ++ concatVal (p :: rest.filter (fun p => p ≠ ""))
        rw [String.append_assoc]
        rfl
      · show c + 1 + (rest.filter (fun p => p ≠ "")).length
          = c + (p :: rest.filter (fun p => p ≠ "")).length
        simp
        omega

/-- The loop of `GetParamLog`, specialised to the initial accumulator. -/
theorem paramFold_eq (params : List String) :
    paramFold params =
      ("" ++ concatFmt (params.filter (fun p => p ≠ "")),
       "" ++ concatVal (params.filter (fun p => p ≠ "")),
       0 + (params.filter (fun p => p ≠ "")).length) :=
  getParamLog_foldl params ("") ("") 0

/-- Source `GetParamLog`, in closed form: the format string joins each non-empty
name with its `%+v` placeholder with `, `, the argument string joins the
non-empty names with `,`, the count is the number of non-empty names. -/
theorem getParamLog_eq (params : List String) :
    GetParamLog params =
      (joinSep (", ") ((params.filter (fun p => p ≠ "")).map (fun n => n ++ ": %+v")),
       joinSep (",") (params.filter (fun p => p ≠ "")),
       (params.filter (fun p => p ≠ "")).length) := by
  unfold GetParamLog
  rw [paramFold_eq]
  cases hf : params.filter (fun p => p ≠ "") with
  | nil => decide
  | cons n rest =>
    show (strTrimSuffix ("" ++ concatFmt (n :: rest)) ", ",
      strTrimSuffix ("" ++ concatVal (n :: rest)) ",", 0 + (n :: rest).length) = _
    rw [concatFmt_factor n rest, concatVal_factor n rest,
      str_empty_append, str_empty_append, strTrimSuffix_append, strTrimSuffix_append]
    simp

/-- The entry trace text and column, in the specification's form. -/
theorem getEntryLogInfo_eq (info : FuncInfo) :
    (GetEntryLogInfo info).Log = specEntryLog info ∧
    (GetEntryLogInfo info).Col = info.EntryLogPos.column := by
  unfold GetEntryLogInfo specEntryLog
  rw [getParamLog_eq]
  cases hf : info.Params.filter (fun p => p ≠ "") with
  | nil =>
    rw [if_neg (by simp), if_pos rfl]
    refine ⟨?_, rfl⟩
    show "fmt.Println(\"" ++ ("Starting func " ++ info.Name) ++ "\")"
      = "fmt.Println(\"Starting func " ++ info.Name ++ "\")"
    have h2 : "fmt.Println(\"" ++ "Starting func " = "fmt.Println(\"Starting func " := by decide
    simp only [String.append_assoc]
    rw [← h2]
    simp only [String.append_assoc]
  | cons n rest =>
    rw [if_pos (by simp), if_neg (by simp)]
    refine ⟨?_, rfl⟩
    show "fmt.Printf(\"" ++
        (("Starting func " ++ info.Name) ++ " with values: "
          ++ joinSep (", ") ((n :: rest).map (fun x => x ++ ": %+v"))) ++
        "\\n\", " ++ joinSep (",") (n :: rest) ++ ")"
      = "fmt.Printf(\"Starting func " ++ info.Name ++ " with values: " ++
          joinSep (", ") ((n :: rest).map (fun x => x ++ ": %+v")) ++ "\\n\", " ++
          joinSep (",") (n :: rest) ++ ")"
    have h1 : "fmt.Printf(\"" ++ "Starting func " = "fmt.Printf(\"Starting func " := by decide
    simp only [String.append_assoc]
    rw [← h1]
    simp only [String.append_assoc]

/-!
C5.
-/

/-- C5 counterexample: for the function `func f(a int)` the rendered entry
trace uses the `%+v` placeholder, and the text `a: %v` claimed for the
parameter does not occur anywhere in it — the placeholder is not `%v`. -/
theorem c5_counterexample :
    (GetEntryLogInfo c5info).Log
      = "fmt.Printf(\"Starting func f with values: a: %+v\\n\", a)" ∧
    strContains (GetEntryLogInfo c5info).Log ("a: %v") = false := by decide

/-- C5 (amended): for every recorded function exactly one entry trace is
generated — it is the single trace at position `logsCountBefore fnInfo k`
of the generated list, preceding the function's exit traces — and its text
is: a formatted-print statement listing each non-empty parameter name with
a `%+v` placeholder (not `%v`) in declared order, taking those parameters
as arguments, when at least one parameter name is non-empty; a plain print
of "Starting func name" with no arguments otherwise.  Unnamed parameters
stay in the parameter list as empty placeholders but contribute nothing to
the rendered trace. -/
theorem c5_entry_trace (fnInfo : List FuncInfo) (k : Nat) (info : FuncInfo)
    (hk : fnInfo[k]? = some info) :
    (GenerateLogs fnInfo)[logsCountBefore fnInfo k]? =
      some (info.EntryLogPos.line, GetEntryLogInfo info) ∧
    (GetEntryLogInfo info).Log = specEntryLog info ∧
    (GetEntryLogInfo info).Col = info.EntryLogPos.column :=
  ⟨generateLogsAux_getElem_entry fnInfo 0 k info hk,
   (getEntryLogInfo_eq info).1, (getEntryLogInfo_eq info).2⟩

/-- Witness for C5's amended statement at the one-parameter function. -/
theorem c5_witness :
    (GenerateLogs [c5info])[logsCountBefore [c5info] 0]? =
      some (c5info.EntryLogPos.line, GetEntryLogInfo c5info) ∧
    (GetEntryLogInfo c5info).Log = specEntryLog c5info ∧
    (GetEntryLogInfo c5info).Col = c5info.EntryLogPos.column :=
  c5_entry_trace [c5info] 0 c5info (by decide)

/-!
C2.
-/

/-- C2: in the list of generated trace lines (generation order: functions
in declaration order, each function's single entry trace before its exit
traces), the i-th exit trace of the k-th function sits at position
`logsCountBefore fnInfo k + 1 + i`, i.e. exactly that many trace lines were
generated before it, and the line number it displays is the exit point's
raw line plus that count.  In particular the first exit trace of the first
function displays its raw line plus one. -/
theorem c2_exit_line_compensation (fnInfo : List FuncInfo) (k i : Nat)
    (info : FuncInfo) (p : Position)
    (hk : fnInfo[k]? = some info) (hi : info.ExitLogPos[i]? = some p) :
    (GenerateLogs fnInfo)[logsCountBefore fnInfo k + 1 + i]? =
      some (p.line, GetExitLogInfo info i (p.line + (logsCountBefore fnInfo k + 1 + i))) := by
  have h := generateLogsAux_getElem_exit fnInfo 0 k i info p hk hi
  have harith : p.line + 0 + (logsCountBefore fnInfo k + 1 + i)
      = p.line + (logsCountBefore fnInfo k + 1 + i) := by omega
  rw [harith] at h
  exact h

/-- Witness for C2 at a two-function file: the first exit trace of the
first function (one trace line — its own entry — generated before it). -/
theorem c2_witness :
    (GenerateLogs [c1info, c6info])[logsCountBefore [c1info, c6info] 0 + 1 + 0]? =
      some ((⟨3, 3⟩ : Position).line,
        GetExitLogInfo c1info 0 ((⟨3, 3⟩ : Position).line +
          (logsCountBefore [c1info, c6info] 0 + 1 + 0))) :=
  c2_exit_line_compensation [c1info, c6info] 0 0 c1info ⟨3, 3⟩ (by decide) (by decide)

/-!
Merger characterisation (C3, C4).
-/

/-- Successful rendering of a log list yields exactly the
specification-side renderings. -/
theorem renderAll_eq :
    ∀ (l : List LogInfo) (r : List String), renderAll l = some r → r = l.map specRender
  | [], r, h => by
    simp only [renderAll, Option.some.injEq] at h
    subst h; rfl
  | li :: rest, r, h => by
    simp only [renderAll] at h
    cases hr : renderLogLine li with
    | none => rw [hr] at h; cases h
    | some s =>
      rw [hr] at h
      cases hrest : renderAll rest with
      | none => rw [hrest] at h; cases h
      | some ss =>
        rw [hrest] at h
        simp only [Option.some.injEq] at h
        subst h
        have hs : s = specRender li := by
          unfold renderLogLine at hr
          by_cases hc : li.Col = 0
          · rw [if_pos hc] at hr; cases hr
          · rw [if_neg hc] at hr
            simp only [Option.some.injEq] at hr
            rw [← hr]; rfl
        rw [hs, renderAll_eq rest ss hrest]
        rfl

/-- The writer loop, on success, produces exactly the specification's
merge, and the original lines survive in order (as a sublist). -/
theorem writeLogsToFileAux_eq (logs : List (Nat × LogInfo)) :
    ∀ (contents : List String) (idx : Nat) (out : List String),
      WriteLogsToFileAux logs contents idx = some out →
      out = mergeSpecAux logs contents idx ∧ contents.Sublist out
  | [], idx, out, h => by
    simp only [WriteLogsToFileAux, Option.some.injEq] at h
    subst h
    exact ⟨rfl, List.nil_sublist _⟩
  | line :: rest, idx, out, h => by
    simp only [WriteLogsToFileAux] at h
    cases hr : renderAll (lookupLogs logs (idx + 1)) with
    | none => rw [hr] at h; cases h
    | some rendered =>
      rw [hr] at h
      cases hrest : WriteLogsToFileAux logs rest (idx + 1) with
      | none => rw [hrest] at h; cases h
      | some out2 =>
        rw [hrest] at h
        simp only [Option.some.injEq] at h
        subst h
        obtain ⟨heq, hsub⟩ := writeLogsToFileAux_eq logs rest (idx + 1) out2 hrest
        constructor
        · rw [renderAll_eq _ rendered hr, heq]
          rfl
        · have h1 : (line :: rest).Sublist (line :: out2) := hsub.cons₂ line
          exact h1.trans (List.sublist_append_right rendered (line :: out2))

/-!
C3.
-/

/-- C3: whenever the writer succeeds, its output is exactly the merge the
specification describes — for every original 1-based line number with
attached trace lines, those lines first, in generation order, each
indented by `column − 1` tab units, immediately followed by the original
line verbatim; lines with no attached traces are emitted verbatim — and
the original lines appear in the output in their original order and
content (a sublist: only insertions happen, never deletions or
reorderings). -/
theorem c3_merge_contract (contents : List String) (logs : List (Nat × LogInfo))
    (out : List String) (h : WriteLogsToFile contents logs = some out) :
    out = mergeSpec contents logs ∧ contents.Sublist out :=
  writeLogsToFileAux_eq logs contents 0 out h

/-- Witness for C3 at a three-line file with one attached log line. -/
theorem c3_witness : c3out = mergeSpec c3contents c3logs ∧ c3contents.Sublist c3out :=
  c3_merge_contract c3contents c3logs c3out (by decide)

/-!
Trace-line shape (C4).
-/

/-- If a string's characters are a stated prefix's characters followed by
anything, the prefix test succeeds. -/
theorem strStartsWith_of_data (s pre : String) (t : List Char) (h : s.data = pre.data ++ t) :
    strStartsWith s pre = true := by
  unfold strStartsWith
  rw [h]
  simp [ List.isPrefixOf_iff_prefix]

/-- Every generated entry trace starts with one of the two entry trace
patterns. -/
theorem entry_log_shape (info : FuncInfo) :
    strStartsWith (GetEntryLogInfo info).Log ("fmt.Println(\"Starting func ") = true ∨
    strStartsWith (GetEntryLogInfo info).Log ("fmt.Printf(\"Starting func ") = true := by
  rw [(getEntryLogInfo_eq info).1]
  unfold specEntryLog
  by_cases hc : info.Params.filter (fun p => p ≠ "") = []
  · left
    rw [if_pos hc]
    apply strStartsWith_of_data _ _ (info.Name.data ++ "\")".data)
    simp
  · right
    rw [if_neg hc]
    apply strStartsWith_of_data _ _
      (info.Name.data ++ (" with values: " ++
        joinSep (", ") ((info.Params.filter (fun p => p ≠ "")).map (fun n => n ++ ": %+v")) ++
        "\\n\", " ++ joinSep (",") (info.Params.filter (fun p => p ≠ "")) ++ ")").data)
    simp

/-- Every generated exit trace starts with the exit trace pattern. -/
theorem exit_log_shape (info : FuncInfo) (idx line : Nat) :
    strStartsWith (GetExitLogInfo info idx line).Log ("fmt.Println(\"Exiting func ") = true := by
  apply strStartsWith_of_data _ _
    (info.Name.data ++ (" from line " ++ toString line ++ "\")").data)
  simp [GetExitLogInfo]

/-- Every pair of the exit-log loop is an exit trace. -/
theorem genExitLogs_mem_shape (info : FuncInfo) :
    ∀ (exits : List Position) (idx count : Nat) (pr : Nat × LogInfo),
      pr ∈ (genExitLogs info exits idx count).1 →
      ∃ i l, pr.2 = GetExitLogInfo info i l
  | [], _, _, pr, h => by simp [genExitLogs] at h
  | p :: rest, idx, count, pr, h => by
    simp only [genExitLogs, List.mem_cons] at h
    rcases h with h | h
    · exact ⟨idx, p.line + count, by rw [h]⟩
    · exact genExitLogs_mem_shape info rest (idx + 1) (count + 1) pr h

/-- Every generated trace line (entry or exit, any function) matches one of
the three trace text patterns. -/
theorem generated_log_shape :
    ∀ (fnInfo : List FuncInfo) (count : Nat) (pr : Nat × LogInfo),
      pr ∈ GenerateLogsAux fnInfo count →
      strStartsWith pr.2.Log ("fmt.Println(\"Starting func ") = true ∨
      strStartsWith pr.2.Log ("fmt.Printf(\"Starting func ") = true ∨
      strStartsWith pr.2.Log ("fmt.Println(\"Exiting func ") = true
  | [], _, pr, h => by simp [GenerateLogsAux] at h
  | info :: rest, count, pr, h => by
    simp only [GenerateLogsAux, List.cons_append, List.mem_cons, List.mem_append] at h
    rcases h with h | h | h
    · rcases entry_log_shape info with he | he
      · left; rw [h]; exact he
      · right; left; rw [h]; exact he
    · obtain ⟨i, l, hil⟩ := genExitLogs_mem_shape info info.ExitLogPos 0 (count + 1) pr h
      right; right; rw [hil]; exact exit_log_shape info i l
    · exact generated_log_shape rest _ pr h

theorem stringsRepeat_tab_data (n : Nat) :
    (stringsRepeat ("\t") n).data = List.replicate n '\t' := by
  induction n with
  | zero => rfl
  | succ m ih => simp [stringsRepeat, ih, List.replicate_succ]

theorem dropWhile_replicate_append (n : Nat) (l : List Char) :
    (List.replicate n '\t' ++ l).dropWhile (fun c => c == '\t')
      = l.dropWhile (fun c => c == '\t') := by
  induction n with
  | zero => rfl
  | succ m ih => simp [List.replicate_succ, List.dropWhile_cons, ih]

/-- A rendered trace line still matches the trace patterns after its
indentation: the rendering only prepends tabs and every pattern starts
with a non-tab character. -/
theorem specRender_isTraceLine (li : LogInfo)
    (h : strStartsWith li.Log ("fmt.Println(\"Starting func ") = true ∨
         strStartsWith li.Log ("fmt.Printf(\"Starting func ") = true ∨
         strStartsWith li.Log ("fmt.Println(\"Exiting func ") = true) :
    isTraceLine (specRender li) = true := by
  have hdata : (dropIndent (specRender li)).data = (dropIndent li.Log).data := by
    unfold dropIndent specRender
    rw [String.data_append, stringsRepeat_tab_data, dropWhile_replicate_append]
  have hdrop : dropIndent (specRender li) = dropIndent li.Log := str_ext hdata
  have hlog : dropIndent li.Log = li.Log := by
    apply str_ext
    unfold dropIndent
    rcases h with h | h | h <;>
    · unfold strStartsWith at h
      rw [ List.isPrefixOf_iff_prefix] at h
      obtain ⟨t, ht⟩ := h
      rw [← ht]
      rfl
  unfold isTraceLine
  rw [hdrop, hlog]
  rcases h with h | h | h <;> simp [h]

/-- Members of a per-line lookup come from the log list. -/
theorem lookupLogs_mem (logs : List (Nat × LogInfo)) (n : Nat) (li : LogInfo)
    (h : li ∈ lookupLogs logs n) : ∃ pr ∈ logs, pr.2 = li := by
  unfold lookupLogs at h
  obtain ⟨pr, hpr, heq⟩ := List.mem_map.mp h
  exact ⟨pr, (List.mem_filter.mp hpr).1, heq⟩

/-- Filtering the trace lines back out of the merged output recovers the
original lines, provided no original line matches a trace pattern. -/
theorem mergeSpecAux_filter (logs : List (Nat × LogInfo))
    (htrace : ∀ pr ∈ logs, isTraceLine (specRender pr.2) = true) :
    ∀ (contents : List String) (idx : Nat),
      (∀ l ∈ contents, isTraceLine l = false) →
      (mergeSpecAux logs contents idx).filter (fun l => !isTraceLine l) = contents
  | [], idx, _ => rfl
  | line :: rest, idx, hclean => by
    simp only [mergeSpecAux, List.filter_append, List.filter_cons]
    have h1 : ((lookupLogs logs (idx + 1)).map specRender).filter
        (fun l => !isTraceLine l) = [] := by
      rw [List.filter_eq_nil_iff]
      intro s hs
      obtain ⟨li, hli, hre⟩ := List.mem_map.mp hs
      obtain ⟨pr, hpr, hpr2⟩ := lookupLogs_mem logs (idx + 1) li hli
      rw [← hre, ← hpr2]
      simp [htrace pr hpr]
    rw [h1]
    have h2 : (!isTraceLine line) = true := by
      simp [hclean line (List.mem_cons_self line rest)]
    rw [if_pos h2]
    rw [mergeSpecAux_filter logs htrace rest (idx + 1)
      (fun l hl => hclean l (List.mem_cons_of_mem line hl))]
    rfl

/-!
C4.
-/

/-- C4 counterexample: for the sample file `c4contents` — whose function
body contains a line textually identical to the entry trace generated for
it — stripping every line matching the generated trace patterns from the
instrumented output does not reproduce the original file: the original
print statement is stripped away with the inserted traces. -/
theorem c4_counterexample :
    GetAllFuncInfo [.funcDecl c4fn] = .ok [c4info] ∧
    WriteLogsToFile c4contents (GenerateLogs [c4info]) = some c4out ∧
    c4out.filter (fun l => !isTraceLine l) ≠ c4contents := by decide

/-- C4 (amended): for every input file processed without fatal error whose
original lines do not themselves match the generated entry/exit trace
patterns, removing from the output every line matching those patterns
reproduces the original file's line sequence exactly. -/
theorem c4_strip_roundtrip (infos : List FuncInfo) (contents out : List String)
    (hw : WriteLogsToFile contents (GenerateLogs infos) = some out)
    (hclean : ∀ l ∈ contents, isTraceLine l = false) :
    out.filter (fun l => !isTraceLine l) = contents := by
  obtain ⟨heq, -⟩ := writeLogsToFileAux_eq (GenerateLogs infos) contents 0 out hw
  rw [heq]
  exact mergeSpecAux_filter (GenerateLogs infos)
    (fun pr hpr => specRender_isTraceLine pr.2 (generated_log_shape infos 0 pr hpr))
    contents 0 hclean

/-- Witness for C4's amended statement at a trace-free two-line file. -/
theorem c4_witness : c4wout.filter (fun l => !isTraceLine l) = c4wcontents :=
  c4_strip_roundtrip [c6info] c4wcontents c4wout (by decide) (by decide)

/-!
Path lemmas (C9).
-/

theorem takeWhile_append_all {p : Char → Bool} :
    ∀ (l1 l2 : List Char), (∀ c ∈ l1, p c = true) →
      (l1 ++ l2).takeWhile p = l1 ++ l2.takeWhile p
  | [], l2, _ => rfl
  | c :: l1, l2, h => by
    have hc := h c (List.mem_cons_self c l1)
    simp only [List.cons_append, List.takeWhile_cons, hc, if_true]
    rw [takeWhile_append_all l1 l2 (fun x hx => h x (List.mem_cons_of_mem c hx))]

theorem dropWhile_append_all {p : Char → Bool} :
    ∀ (l1 l2 : List Char), (∀ c ∈ l1, p c = true) →
      (l1 ++ l2).dropWhile p = l2.dropWhile p
  | [], l2, _ => rfl
  | c :: l1, l2, h => by
    have hc := h c (List.mem_cons_self c l1)
    simp only [List.cons_append, List.dropWhile_cons, hc, if_true]
    exact dropWhile_append_all l1 l2 (fun x hx => h x (List.mem_cons_of_mem c hx))

theorem mem_takeWhile {p : Char → Bool} :
    ∀ (l : List Char) (c : Char), c ∈ l.takeWhile p → p c = true
  | [], c, h => by simp at h
  | a :: l, c, h => by
    rw [List.takeWhile_cons] at h
    by_cases ha : p a = true
    · rw [if_pos ha] at h
      rcases List.mem_cons.mp h with rfl | h2
      · exact ha
      · exact mem_takeWhile l c h2
    · rw [if_neg ha] at h; simp at h

theorem dropWhile_eq_self_of_head {p : Char → Bool} :
    ∀ (l : List Char), (∀ c, l.head? = some c → p c = false) → l.dropWhile p = l
  | [], _ => rfl
  | a :: l, h => by
    have ha := h a rfl
    simp [List.dropWhile_cons, ha]

theorem data_ne_nil_of_ne_empty (path : String) (h : path ≠ "") : path.data ≠ [] := by
  intro hd
  exact h (str_ext (by simp [hd]))

/-- For a path that does not end in a separator, `Base` strips nothing and
returns the non-empty, separator-free final element. -/
theorem filepathBase_good (path : String) (h1 : path ≠ "")
    (h2 : path.data.getLast? ≠ some '/') :
    stripTrailingSlashes path.data = path.data ∧
    filepathBase path = ⟨afterLastSlash path.data⟩ ∧
    afterLastSlash path.data ≠ [] ∧
    (∀ c ∈ afterLastSlash path.data, (c != '/') = true) := by
  have hstrip : stripTrailingSlashes path.data = path.data := by
    unfold stripTrailingSlashes
    rw [dropWhile_eq_self_of_head]
    · exact List.reverse_reverse _
    · intro c hc
      rw [List.head?_reverse] at hc
      have : c ≠ '/' := fun hcc => h2 (by rw [← hcc]; exact hc)
      simp [this]
  have hmem : ∀ c ∈ afterLastSlash path.data, (c != '/') = true := by
    intro c hc
    unfold afterLastSlash at hc
    rw [List.mem_reverse] at hc
    exact mem_takeWhile _ c hc
  have hne : afterLastSlash path.data ≠ [] := by
    unfold afterLastSlash
    have hd := data_ne_nil_of_ne_empty path h1
    cases hr : path.data.reverse with
    | nil => exact absurd (by simpa using congrArg List.reverse hr) hd
    | cons c t =>
      have hc : path.data.getLast? = some c := by rw [← List.head?_reverse, hr]; rfl
      have : c ≠ '/' := fun hcc => h2 (by rw [← hcc]; exact hc)
      rw [List.takeWhile_cons, if_pos (by simp [this])]
      simp
  refine ⟨hstrip, ?_, hne, hmem⟩
  unfold filepathBase
  rw [if_neg h1, hstrip, if_neg hne]

theorem extLoop_nil (acc : List Char) : extLoop acc [] = [] := rfl

theorem extLoop_slash (acc rest : List Char) : extLoop acc ('/' :: rest) = [] := by
  simp [extLoop]

theorem extLoop_dot (acc rest : List Char) : extLoop acc ('.' :: rest) = '.' :: acc := by
  simp [extLoop]

theorem extLoop_other (acc rest : List Char) (c : Char) (h1 : c ≠ '/') (h2 : c ≠ '.') :
    extLoop acc (c :: rest) = extLoop (c :: acc) rest := by
  simp [extLoop, h1, h2]

/-- Walking the extension scan over characters that are neither separators
nor dots just accumulates them. -/
theorem extLoop_clean_append :
    ∀ (l1 : List Char), (∀ c ∈ l1, c ≠ '/' ∧ c ≠ '.') →
      ∀ (acc l2 : List Char), extLoop acc (l1 ++ l2) = extLoop (l1.reverse ++ acc) l2
  | [], _, acc, l2 => by simp
  | c :: l1, h, acc, l2 => by
    have hc := h c (List.mem_cons_self c l1)
    rw [List.cons_append, extLoop_other acc (l1 ++ l2) c hc.1 hc.2]
    rw [extLoop_clean_append l1 (fun x hx => h x (List.mem_cons_of_mem c hx)) (c :: acc) l2]
    congr 1
    simp

/-- The characters of the new path: the directory, one separator, then the
marked base name (which contains no separator). -/
theorem getNewPath_data (path : String) (h1 : path ≠ "")
    (h2 : path.data.getLast? ≠ some '/') :
    (GetNewPath path).data
      = (filepathDir path).data ++ '/' :: ("debug_".data ++ afterLastSlash path.data) := by
  obtain ⟨-, hbase, -, -⟩ := filepathBase_good path h1 h2
  unfold GetNewPath
  rw [hbase]
  simp

/-- C9: for every input path naming a file (non-empty, not ending in a
separator), the output path of `GetNewPath` splits into the same directory
part and a base name equal to the input's base name prefixed with the
literal marker `debug_`; it keeps the input's extension; it always differs
from the input path; and on every successful run the path written to is
`GetNewPath` of the input, hence never the input itself — the input file is
only read. -/
theorem c9_output_path (path : String) (h1 : path ≠ "")
    (h2 : path.data.getLast? ≠ some '/') :
    filepathSplit (GetNewPath path) = (filepathDir path ++ "/", "debug_" ++ filepathBase path) ∧
    filepathExt (GetNewPath path) = filepathExt path ∧
    GetNewPath path ≠ path ∧
    (∀ (decls : List Decl) (contents : List String) (res : String × List String),
      AddLogsToFile decls contents path = .ok res → res.1 ≠ path) := by
  obtain ⟨hstrip, hbase, hbne, hmem⟩ := filepathBase_good path h1 h2
  have hdata := getNewPath_data path h1 h2
  have hrev : (GetNewPath path).data.reverse
      = ("debug_".data ++ afterLastSlash path.data).reverse
          ++ '/' :: (filepathDir path).data.reverse := by
    rw [hdata]
    simp
  have hclean : ∀ c ∈ ("debug_".data ++ afterLastSlash path.data).reverse, (c != '/') = true := by
    intro c hc
    rw [List.mem_reverse, List.mem_append] at hc
    rcases hc with hc | hc
    · revert c
      decide
    · exact hmem c hc
  have htake : (GetNewPath path).data.reverse.takeWhile (fun c => c != '/')
      = ("debug_".data ++ afterLastSlash path.data).reverse := by
    rw [hrev, takeWhile_append_all _ _ hclean]
    rw [List.takeWhile_cons, if_neg (by decide)]
    simp
  have hdrop : (GetNewPath path).data.reverse.dropWhile (fun c => c != '/')
      = '/' :: (filepathDir path).data.reverse := by
    rw [hrev, dropWhile_append_all _ _ hclean]
    rw [List.dropWhile_cons, if_neg (by decide)]
  have hsplit : filepathSplit (GetNewPath path)
      = (filepathDir path ++ "/", "debug_" ++ filepathBase path) := by
    unfold filepathSplit
    rw [htake, hdrop]
    refine Prod.ext (str_ext ?_) (str_ext ?_)
    · show ('/' :: (filepathDir path).data.reverse).reverse = (filepathDir path ++ "/").data
      simp
    · show (("debug_".data ++ afterLastSlash path.data).reverse).reverse
        = ("debug_" ++ filepathBase path).data
      rw [hbase]
      simp
  have hbrev : (afterLastSlash path.data).reverse
      = path.data.reverse.takeWhile (fun c => c != '/') := by
    unfold afterLastSlash
    exact List.reverse_reverse _
  have hne : GetNewPath path ≠ path := by
    intro heq
    have hags := congrArg (fun s : String => s.data.reverse.takeWhile (fun c => c != '/')) heq
    simp only at hags
    rw [htake, ← hbrev] at hags
    have hlen := congrArg List.length hags
    simp at hlen
  have hpathrev : path.data.reverse
      = (afterLastSlash path.data).reverse
          ++ path.data.reverse.dropWhile (fun c => c != '/') := by
    rw [hbrev]
    exact (List.takeWhile_append_dropWhile _ _).symm
  have hbnoslash : ∀ c ∈ (afterLastSlash path.data).reverse, c ≠ '/' := by
    intro c hc
    have := hmem c (List.mem_reverse.mp hc)
    simpa using this
  have hnewrev2 : (GetNewPath path).data.reverse
      = (afterLastSlash path.data).reverse ++
          ("debug_".data.reverse ++ '/' :: (filepathDir path).data.reverse) := by
    rw [hrev]
    simp
  have hgub : ∀ c ∈ "debug_".data.reverse, c ≠ '/' ∧ c ≠ '.' := by decide
  have hext : filepathExt (GetNewPath path) = filepathExt path := by
    apply str_ext
    show extLoop [] (GetNewPath path).data.reverse = extLoop [] path.data.reverse
    cases hd : (afterLastSlash path.data).reverse.dropWhile (fun c => c != '.') with
    | nil =>
      have hba : (afterLastSlash path.data).reverse.takeWhile (fun c => c != '.')
          = (afterLastSlash path.data).reverse := by
        conv_rhs =>
          rw [← List.takeWhile_append_dropWhile (fun c => c != '.')
            (afterLastSlash path.data).reverse]
        rw [hd]
        simp
      have hcleanb : ∀ c ∈ (afterLastSlash path.data).reverse, c ≠ '/' ∧ c ≠ '.' := by
        intro c hc
        refine ⟨hbnoslash c hc, ?_⟩
        rw [← hba] at hc
        have := mem_takeWhile _ c hc
        simpa using this
      rw [hpathrev, hnewrev2]
      rw [extLoop_clean_append _ hcleanb, extLoop_clean_append _ hcleanb]
      rw [extLoop_clean_append _ hgub]
      rw [extLoop_slash]
      cases hpd : path.data.reverse.dropWhile (fun c => c != '/') with
      | nil => rw [extLoop_nil]
      | cons c t =>
        have hhead := List.head?_dropWhile_not (fun c => c != '/') path.data.reverse
        rw [hpd] at hhead
        simp only [List.head?_cons] at hhead
        have hcs : c = '/' := by simpa using hhead
        rw [hcs, extLoop_slash]
    | cons c t =>
      have hhead := List.head?_dropWhile_not (fun c => c != '.') (afterLastSlash path.data).reverse
      rw [hd] at hhead
      simp only [List.head?_cons] at hhead
      have hcs : c = '.' := by simpa using hhead
      subst hcs
      have hbdecomp : (afterLastSlash path.data).reverse
          = (afterLastSlash path.data).reverse.takeWhile (fun c => c != '.') ++ '.' :: t := by
        conv_lhs =>
          rw [← List.takeWhile_append_dropWhile (fun c => c != '.')
            (afterLastSlash path.data).reverse]
        rw [hd]
      have hpre : ∀ ch ∈ (afterLastSlash path.data).reverse.takeWhile (fun c => c != '.'),
          ch ≠ '/' ∧ ch ≠ '.' := by
        intro ch hch
        refine ⟨hbnoslash ch (List.takeWhile_subset _ hch), ?_⟩
        have := mem_takeWhile _ ch hch
        simpa using this
      rw [hpathrev, hnewrev2, hbdecomp]
      rw [List.append_assoc, List.append_assoc]
      simp only [List.cons_append]
      rw [extLoop_clean_append _ hpre, extLoop_clean_append _ hpre]
      rw [extLoop_dot, extLoop_dot]
  refine ⟨hsplit, hext, hne, ?_⟩
  intro decls contents res hok
  unfold AddLogsToFile at hok
  cases hg : GetAllFuncInfo decls with
  | error e => rw [hg] at hok; cases hok
  | ok infos =>
    rw [hg] at hok
    simp only at hok
    cases hw : WriteLogsToFile contents (GenerateLogs infos) with
    | none => rw [hw] at hok; cases hok
    | some out =>
      rw [hw] at hok
      simp only [Except.ok.injEq] at hok
      rw [← hok]
      exact hne

/-- Witness for C9 at the path `dir/foo.go`. -/
theorem c9_witness :
    filepathSplit (GetNewPath ("dir/foo.go"))
      = (filepathDir ("dir/foo.go") ++ "/", "debug_" ++ filepathBase ("dir/foo.go")) ∧
    filepathExt (GetNewPath ("dir/foo.go")) = filepathExt ("dir/foo.go") ∧
    GetNewPath ("dir/foo.go") ≠ "dir/foo.go" ∧
    (∀ (decls : List Decl) (contents : List String) (res : String × List String),
      AddLogsToFile decls contents ("dir/foo.go") = .ok res → res.1 ≠ "dir/foo.go") :=
  c9_output_path ("dir/foo.go") (by decide) (by decide)

/-!
Position validity (C10).
-/

theorem stmtPosValid_pos (s : Stmt) (h : stmtPosValid s = true) : posValid s.pos = true := by
  cases s with
  | ret p cs => simp only [stmtPosValid, Bool.and_eq_true] at h; exact h.1
  | other p cs => simp only [stmtPosValid, Bool.and_eq_true] at h; exact h.1

mutual
theorem stmtReturns_posValid :
    ∀ (s : Stmt), stmtPosValid s = true → ∀ p ∈ stmtReturns s, posValid p = true
  | .ret q cs, h, p, hp => by
    simp only [stmtPosValid, Bool.and_eq_true] at h
    simp only [stmtReturns, List.mem_cons] at hp
    rcases hp with rfl | hp
    · exact h.1
    · exact stmtListReturns_posValid cs h.2 p hp
  | .other q cs, h, p, hp => by
    simp only [stmtPosValid, Bool.and_eq_true] at h
    simp only [stmtReturns] at hp
    exact stmtListReturns_posValid cs h.2 p hp
theorem stmtListReturns_posValid :
    ∀ (l : StmtList), stmtListPosValid l = true → ∀ p ∈ stmtListReturns l, posValid p = true
  | .nil, _, p, hp => by simp [stmtListReturns] at hp
  | .cons s rest, h, p, hp => by
    simp only [stmtListPosValid, Bool.and_eq_true] at h
    simp only [stmtListReturns, List.mem_append] at hp
    rcases hp with hp | hp
    · exact stmtReturns_posValid s h.1 p hp
    · exact stmtListReturns_posValid rest h.2 p hp
end

theorem stmtsReturns_posValid :
    ∀ (l : List Stmt), stmtsPosValid l = true → ∀ p ∈ stmtsReturns l, posValid p = true
  | [], _, p, hp => by simp [stmtsReturns] at hp
  | s :: rest, h, p, hp => by
    simp only [stmtsPosValid, Bool.and_eq_true] at h
    simp only [stmtsReturns, List.mem_append] at hp
    rcases hp with hp | hp
    · exact stmtReturns_posValid s h.1 p hp
    · exact stmtsReturns_posValid rest h.2 p hp

theorem stmtsPosValid_mem :
    ∀ (l : List Stmt) (s : Stmt), s ∈ l → stmtsPosValid l = true → stmtPosValid s = true
  | [], s, hs, _ => by simp at hs
  | a :: rest, s, hs, h => by
    simp only [stmtsPosValid, Bool.and_eq_true] at h
    rcases List.mem_cons.mp hs with rfl | hs2
    · exact h.1
    · exact stmtsPosValid_mem rest s hs2 h.2

/-- Valid parser positions for the whole block give entry and exit columns
of at least one. -/
theorem extract_cols_valid (fn : FuncDecl) (body : BlockStmt) (lb rb : Position)
    (hb : fn.body = some body) (hl : body.lbrace = some lb) (hr : body.rbrace = some rb)
    (hbv : blockPosValid body = true) (info : FuncInfo)
    (hok : ExtractFuncInfo fn = .ok (some info)) :
    1 ≤ info.EntryLogPos.column ∧ ∀ p ∈ info.ExitLogPos, 1 ≤ p.column := by
  obtain ⟨-, hentry, hexits⟩ := extractFuncInfo_ok_some fn body lb rb hb hl hr info hok
  unfold blockPosValid at hbv
  rw [hl, hr] at hbv
  simp only [Bool.and_eq_true] at hbv
  obtain ⟨⟨hlbv, hrbv⟩, hstmts⟩ := hbv
  have col_of_posValid : ∀ q : Position, posValid q = true → 1 ≤ q.column := by
    intro q hq
    simp only [posValid, Bool.and_eq_true, decide_eq_true_eq] at hq
    exact hq.2
  constructor
  · rw [hentry]
    cases hlist : body.list with
    | nil => exact col_of_posValid lb hlbv
    | cons s rest =>
      have hsv : stmtPosValid s = true := by
        apply stmtsPosValid_mem body.list s
        · rw [hlist]; exact List.mem_cons_self s rest
        · exact hstmts
      exact col_of_posValid s.pos (stmtPosValid_pos s hsv)
  · intro p hp
    rw [hexits] at hp
    by_cases hcond : ((stmtsReturns body.list).length = 0 || !lastIsReturn body.list) = true
    · rw [if_pos hcond] at hp
      rcases List.mem_append.mp hp with hp | hp
      · exact col_of_posValid p (stmtsReturns_posValid body.list hstmts p hp)
      · rw [List.mem_singleton] at hp
        subst hp
        cases hlast : body.list.getLast? with
        | none => simp only [hlast]; exact col_of_posValid rb hrbv
        | some s =>
          simp only [hlast]
          have hsv : stmtPosValid s = true :=
            stmtsPosValid_mem body.list s (List.mem_of_getLast?_eq_some hlast) hstmts
          exact col_of_posValid s.pos (stmtPosValid_pos s hsv)
    · rw [if_neg hcond] at hp
      exact col_of_posValid p (stmtsReturns_posValid body.list hstmts p hp)

/-- Every record produced from declarations with valid positions has entry
and exit columns of at least one. -/
theorem getAllFuncInfo_cols :
    ∀ (decls : List Decl) (infos : List FuncInfo),
      (∀ d ∈ decls, declPosValid d = true) → GetAllFuncInfo decls = .ok infos →
      ∀ info ∈ infos, 1 ≤ info.EntryLogPos.column ∧ ∀ p ∈ info.ExitLogPos, 1 ≤ p.column
  | [], infos, _, hok, info, hmem => by
    simp only [GetAllFuncInfo, Except.ok.injEq] at hok
    subst hok
    simp at hmem
  | .other :: rest, infos, hv, hok, info, hmem => by
    exact getAllFuncInfo_cols rest infos (fun d hd => hv d (List.mem_cons_of_mem _ hd))
      (by simpa [GetAllFuncInfo] using hok) info hmem
  | .funcDecl fn :: rest, infos, hv, hok, info, hmem => by
    simp only [GetAllFuncInfo] at hok
    cases hex : ExtractFuncInfo fn with
    | error e => rw [hex] at hok; cases hok
    | ok oinfo =>
      rw [hex] at hok
      cases oinfo with
      | none =>
        exact getAllFuncInfo_cols rest infos
          (fun d hd => hv d (List.mem_cons_of_mem _ hd)) hok info hmem
      | some info0 =>
        cases hrest : GetAllFuncInfo rest with
        | error e => rw [hrest] at hok; cases hok
        | ok infos2 =>
          rw [hrest] at hok
          simp only [Except.ok.injEq] at hok
          subst hok
          rcases List.mem_cons.mp hmem with rfl | hmem2
          · by_cases hvalid : IsFuncBodyValid fn.body = true
            · obtain ⟨name, params, results, obody⟩ := fn
              cases obody with
              | none => simp [IsFuncBodyValid] at hvalid
              | some body =>
                cases hlb : body.lbrace with
                | none =>
                  rw [show (⟨name, params, results, some body⟩ : FuncDecl).body
                    = some body from rfl] at hvalid
                  simp [IsFuncBodyValid, hlb] at hvalid
                | some lb =>
                  cases hrb : body.rbrace with
                  | none =>
                    rw [show (⟨name, params, results, some body⟩ : FuncDecl).body
                      = some body from rfl] at hvalid
                    simp [IsFuncBodyValid, hlb, hrb] at hvalid
                  | some rb =>
                    have hbv : blockPosValid body = true := by
                      have := hv (.funcDecl ⟨name, params, results, some body⟩)
                        (List.mem_cons_self _ _)
                      simpa [declPosValid] using this
                    exact extract_cols_valid _ body lb rb rfl hlb hrb hbv info hex
            · rw [extractFuncInfo_invalid fn (by simpa using hvalid)] at hex
              cases hex
          · exact getAllFuncInfo_cols rest infos2
              (fun d hd => hv d (List.mem_cons_of_mem _ hd)) hrest info hmem2

/-- Every pair generated by the exit-log loop over in-bounds positions has
a column of at least one. -/
theorem genExitLogs_cols (info : FuncInfo)
    (hcol : ∀ p ∈ info.ExitLogPos, 1 ≤ p.column) :
    ∀ (exits : List Position) (idx count : Nat),
      (∀ (j : Nat) (q : Position), exits[j]? = some q → info.ExitLogPos[idx + j]? = some q) →
      ∀ pr ∈ (genExitLogs info exits idx count).1, 1 ≤ pr.2.Col
  | [], _, _, _, pr, hpr => by simp [genExitLogs] at hpr
  | p :: rest, idx, count, hinv, pr, hpr => by
    simp only [genExitLogs, List.mem_cons] at hpr
    rcases hpr with rfl | hpr
    · show 1 ≤ (GetExitLogInfo info idx (p.line + count)).Col
      have h0 := hinv 0 p (by simp)
      rw [Nat.add_zero] at h0
      show 1 ≤ (info.ExitLogPos.getD idx default).column
      rw [List.getD_eq_getElem?_getD, h0]
      exact hcol p (List.getElem?_mem h0)
    · exact genExitLogs_cols info hcol rest (idx + 1) (count + 1)
        (fun j q hq => by
          have := hinv (j + 1) q (by simpa using hq)
          rwa [show idx + (j + 1) = idx + 1 + j by omega] at this)
        pr hpr

/-- Every generated trace line has a column of at least one, provided every
record does. -/
theorem generateLogsAux_cols :
    ∀ (fnInfo : List FuncInfo) (count : Nat),
      (∀ info ∈ fnInfo, 1 ≤ info.EntryLogPos.column ∧ ∀ p ∈ info.ExitLogPos, 1 ≤ p.column) →
      ∀ pr ∈ GenerateLogsAux fnInfo count, 1 ≤ pr.2.Col
  | [], _, _, pr, hpr => by simp [GenerateLogsAux] at hpr
  | info :: rest, count, hcols, pr, hpr => by
    simp only [GenerateLogsAux, List.cons_append, List.mem_cons, List.mem_append] at hpr
    have hinfo := hcols info (List.mem_cons_self info rest)
    rcases hpr with rfl | hpr | hpr
    · show 1 ≤ (GetEntryLogInfo info).Col
      rw [(getEntryLogInfo_eq info).2]
      exact hinfo.1
    · exact genExitLogs_cols info hinfo.2 info.ExitLogPos 0 (count + 1)
        (fun j q hq => by simpa using hq) pr hpr
    · exact generateLogsAux_cols rest _
        (fun i hi => hcols i (List.mem_cons_of_mem info hi)) pr hpr

theorem renderAll_isSome :
    ∀ (l : List LogInfo), (∀ li ∈ l, 1 ≤ li.Col) → (renderAll l).isSome = true
  | [], _ => rfl
  | li :: rest, h => by
    have hli := h li (List.mem_cons_self li rest)
    have hne : li.Col ≠ 0 := by omega
    have hrest := renderAll_isSome rest (fun x hx => h x (List.mem_cons_of_mem li hx))
    simp only [renderAll, renderLogLine, if_neg hne]
    cases hr : renderAll rest with
    | none => rw [hr] at hrest; cases hrest
    | some ss => rfl

theorem writeLogsToFileAux_isSome (logs : List (Nat × LogInfo))
    (hcols : ∀ pr ∈ logs, 1 ≤ pr.2.Col) :
    ∀ (contents : List String) (idx : Nat),
      (WriteLogsToFileAux logs contents idx).isSome = true
  | [], _ => rfl
  | line :: rest, idx => by
    have hlk : ∀ li ∈ lookupLogs logs (idx + 1), 1 ≤ li.Col := by
      intro li hli
      obtain ⟨pr, hpr, hpr2⟩ := lookupLogs_mem logs (idx + 1) li hli
      rw [← hpr2]
      exact hcols pr hpr
    have hr := renderAll_isSome (lookupLogs logs (idx + 1)) hlk
    have hrest := writeLogsToFileAux_isSome logs hcols rest (idx + 1)
    simp only [WriteLogsToFileAux]
    cases hra : renderAll (lookupLogs logs (idx + 1)) with
    | none => rw [hra] at hr; cases hr
    | some rendered =>
      cases hrw : WriteLogsToFileAux logs rest (idx + 1) with
      | none => rw [hrw] at hrest; cases hrest
      | some out => rfl

/-!
C10.
-/

/-- C10: for declarations whose resolved positions are all valid parser
positions (line and column at least one — what `go/parser` guarantees for
a successfully parsed file), every generated trace line has column at
least one, so the merger's indentation computation (`column − 1`
repetitions of the indentation unit) is applied to a non-negative count
and the writer cannot fail. -/
theorem c10_columns_safe (decls : List Decl) (infos : List FuncInfo)
    (contents : List String)
    (hv : ∀ d ∈ decls, declPosValid d = true)
    (hok : GetAllFuncInfo decls = .ok infos) :
    (∀ pr ∈ GenerateLogs infos, 1 ≤ pr.2.Col) ∧
    (WriteLogsToFile contents (GenerateLogs infos)).isSome = true := by
  have hcols := generateLogsAux_cols infos 0 (getAllFuncInfo_cols decls infos hv hok)
  exact ⟨hcols, writeLogsToFileAux_isSome (GenerateLogs infos) hcols contents 0⟩

/-- Witness for C10 at a one-function file. -/
theorem c10_witness :
    (∀ pr ∈ GenerateLogs [c1info], 1 ≤ pr.2.Col) ∧
    (WriteLogsToFile ["l1", "l2", "l3", "l4", "l5", "l6"]
      (GenerateLogs [c1info])).isSome = true :=
  c10_columns_safe [.funcDecl c1fn] [c1info] ["l1", "l2", "l3", "l4", "l5", "l6"]
    (by decide) (by decide)

/-- Witness for C1 at the example function
`func A(x int) \x7b if x == 5 \x7b return \x7d; fmt.Println(...) \x7d`:
one nested return, last top-level statement not a return, so two exit
positions are recorded. -/
theorem c1_witness :
    (ExtractFuncInfo c1fn = .ok (some c1info)) ∧
    c1info.ExitLogPos.length = (FindReturnStmts c1fn).length +
      (if FindReturnStmts c1fn = [] ∨ lastIsReturn c1body.list = false then 1 else 0) := by
  refine ⟨by decide, ?_⟩
  exact (c1_exit_position_count c1fn c1body ⟨1, 15⟩ ⟨6, 1⟩ rfl rfl rfl c1info (by decide)).1

end GoFuncLogger
